import Mathlib

/-!
# quasis-crypto: `Number` and the streaming `SHA` engine

A shallow embedding of `src/number.h` and `src/hasher/sha.h`, and of the round of
`src/hasher/rmd.h`.

Conventions of the embedding (the host the headers are compiled for):
* little-endian host (`h2be` and `be2h` are `swap`, `h2le` and `le2h` are the identity),
* `size_t` is 64 bits wide, every `size_t` computation is reduced modulo `2 ^ 64`,
* the non-Windows branch of `rotr` and `swap`,
* a `Number<SIZE, word_t>` is the list of its `SIZE / WORD` words, word 0 first; its bytes in
  memory are the little-endian bytes of the words in order,
* a byte buffer handed to `update` is the list of its bytes, a `String<char_t>` is the list of
  its characters, and the length of either is the length of the list.

Where the source has no defined result the embedding says so in the comment of the definition:
a loop that does not end and a division by zero give `none`, a write past the end of the block
buffer is dropped.
-/

namespace crypto

/-- Number of values of a `size_t`. -/
def SIZE_T : Nat := 2 ^ 64

/-! ## Memory representation of machine words -/

/-- The `n` bytes a machine word of `n` bytes occupies in memory, lowest address first. -/
def toBytes : Nat → Nat → List Nat
  | 0, _ => []
  | n + 1, x => x % 256 :: toBytes n (x / 256)

/-- The machine word stored in the given bytes, lowest address first. -/
def ofBytes : List Nat → Nat
  | [] => 0
  | b :: bs => b + 256 * ofBytes bs

/-! ## `number.h`: free functions -/

/-- `rotr(number, length)` for a word of `bits` bits:
`(number >> length) | (number << (bits - length))`, truncated to the word. -/
def rotr (bits number length : Nat) : Nat :=
  ((number >>> length) ||| (number <<< (bits - length))) % 2 ^ bits

/-- `cho3(value1, value2, value3)`: `(value1 & (value2 ^ value3)) ^ value3`. -/
def cho3 (value1 value2 value3 : Nat) : Nat :=
  (value1 &&& (value2 ^^^ value3)) ^^^ value3

/-- `maj3(value1, value2, value3)`: `(value1 & value2) | ((value1 ^ value2) & value3)`. -/
def maj3 (value1 value2 value3 : Nat) : Nat :=
  (value1 &&& value2) ||| ((value1 ^^^ value2) &&& value3)

/-- `swap(number)` on a machine word of `n` bytes (`__builtin_bswap16/32/64`, the identity on
`uint8_t`): the word whose bytes are those of `number` in reverse order. -/
def swap (n number : Nat) : Nat :=
  ofBytes (toBytes n number).reverse

/-! ## `number.h`: `Number<SIZE, word_t>` -/

/-- The bytes of a `Number` whose words have `n` bytes each, as `data()` exposes them. -/
def Number.bytes (n : Nat) (word : List Nat) : List Nat :=
  (word.map (toBytes n)).flatten

/-- The words of a zero-initialised `Number` of `bins` words of `n` bytes each after
`memcpy(data(), source, source.length)`; bytes beyond the `Number` are not copied. -/
def Number.load (n : Nat) : Nat → List Nat → List Nat
  | 0, _ => []
  | bins + 1, source => ofBytes (source.take n) :: Number.load n bins (source.drop n)

/-- `Number(const Number<length, type_t> &number)`: a zero-initialised `Number` of `bins` words
of `n` bytes receives the leading `min(size(), number.size())` bytes of `number`, whose words
have `m` bytes. -/
def Number.convert (m n bins : Nat) (number : List Nat) : List Nat :=
  Number.load n bins ((Number.bytes m number).take (n * bins))

/-- `Number(const data_t &object)` for a `Number` of `bins` words of `n` bytes, `object` being
the bytes of the record: `assert(size() >= sizeof(data_t))`, then `memcpy` of the
`sizeof(data_t)` bytes into the zero-initialised words. `none`: the assertion fails. -/
def Number.ofRecord (n bins : Nat) (object : List Nat) : Option (List Nat) :=
  if n * bins ≥ object.length then some (Number.load n bins object) else none

/-- `operator*=(rvalue)` on words of `WORD` bits: the running `remain` is a `size_t`, and so is
the product `rvalue * word[i]`. For `WORD = 64` the shift `remain >> WORD` has no defined result
in the source; the definition is used for words of 8, 16 and 32 bits. -/
def Number.mulAssign (WORD : Nat) (rvalue : Nat) : List Nat → Nat → List Nat
  | [], _ => []
  | w :: word, remain =>
    let remain := (remain + rvalue * w % SIZE_T) % SIZE_T
    remain % 2 ^ WORD :: Number.mulAssign WORD rvalue word (remain >>> WORD)

/-- `swap(const Number<SIZE, word_t>&)`: `result[i] = swap(number[bins - i - 1])`. -/
def Number.swap (n : Nat) (number : List Nat) : List Nat :=
  (List.range number.length).map
    (fun i => crypto.swap n (number.getD (number.length - i - 1) 0))

/-- `operator+=(rvalue)` on words of `WORD` bits; the loop ends as soon as `remain` is zero.
The running `remain` is a `size_t`. For `WORD = 64` the shift `remain >> WORD` has no defined
result in the source; the definition is used for words of 8, 16 and 32 bits. -/
def Number.addAssign (WORD : Nat) : List Nat → Nat → List Nat
  | [], _ => []
  | w :: word, remain =>
    if remain = 0 then w :: word
    else
      let remain := (remain + w) % SIZE_T
      remain % 2 ^ WORD :: Number.addAssign WORD word (remain >>> WORD)

/-- `divide(rvalue)`: the words left in the `Number` and the returned `remain`. The loop runs
from the last word down, so the pass for a word comes after the passes for the words behind it.
`none`: a pass divides by zero. -/
def Number.divide (WORD rvalue : Nat) : List Nat → Option (List Nat × Nat)
  | [] => some ([], 0)
  | w :: word =>
    match Number.divide WORD rvalue word with
    | none => none
    | some (word, remain) =>
      let remain := ((remain <<< WORD) % SIZE_T + w) % SIZE_T
      if remain = 0 then some (0 :: word, remain)
      else if rvalue = 0 then none
      else some (remain / rvalue % 2 ^ WORD :: word, remain % rvalue)

/-- `operator!()`: `memcmp` with `ZERO` finds no difference. -/
def Number.not (word : List Nat) : Bool :=
  word.all (fun w => w = 0)

/-- `String::find(lexeme)`: the first index at which `lexeme` occurs, `none` for `npos`. -/
def find {α : Type} [DecidableEq α] : List α → α → Option Nat
  | [], _ => none
  | c :: format, lexeme =>
    if c = lexeme then some 0 else (find format lexeme).map (fun offset => offset + 1)

/-- The `while (!!number)` loop of `encode`: `string` holds the characters pushed so far.
`none`: the loop did not end within `fuel` passes, or a pass divides by zero or indexes `format`
out of range. -/
def Number.encodeLoop {α : Type} (WORD : Nat) (format : List α) :
    Nat → List Nat → List α → Option (List α)
  | 0, _, _ => none
  | fuel + 1, number, string =>
    if Number.not number then some string
    else
      match Number.divide WORD format.length number with
      | none => none
      | some (number, remain) =>
        match format[remain]? with
        | none => none
        | some c => Number.encodeLoop WORD format fuel number (string ++ [c])

/-- The number of passes of the `while (!!number)` loop of `encode`, within `fuel` passes. -/
def Number.encodePasses {α : Type} (WORD : Nat) (format : List α) : Nat → List Nat → Nat
  | 0, _ => 0
  | fuel + 1, number =>
    if Number.not number then 0
    else
      match Number.divide WORD format.length number with
      | none => 0
      | some (number, remain) =>
        match format[remain]? with
        | none => 0
        | some _ => Number.encodePasses WORD format fuel number + 1

/-- `encode(format)` on a `Number` with words of `WORD` bits. The loop is given one pass more
than the `Number` has bits, which is enough for every alphabet of two characters or more
(`Number.encodeLoop_digits`). `string.reserve` only sets the capacity of the string and is left
out. -/
def Number.encode {α : Type} (WORD : Nat) (number : List Nat) (format : List α) :
    Option (List α) :=
  match Number.encodeLoop WORD format (WORD * number.length + 1) number [] with
  | none => none
  | some string =>
    if string.length = 0 then
      match format[0]? with
      | none => none
      | some c => some (string ++ [c]).reverse
    else some string.reverse

/-- The `for` loop of `from`, with the value `number` has before the pass for the first
character of `string`. -/
def Number.fromLoop {α : Type} [DecidableEq α] (WORD bins : Nat) (format : List α) :
    List Nat → List α → List Nat
  | number, [] => number
  | number, lexeme :: string =>
    match find format lexeme with
    | none => List.replicate bins 0
    | some offset =>
      Number.fromLoop WORD bins format
        (Number.addAssign WORD (Number.mulAssign WORD format.length number 0) offset) string

/-- `Number::from(string, format)` for a `Number` of `bins` words of `WORD` bits. -/
def Number.from {α : Type} [DecidableEq α] (WORD bins : Nat) (string format : List α) :
    List Nat :=
  Number.fromLoop WORD bins format (List.replicate bins 0) string

/-! ## `hasher/sha.h` -/

/-- The state widths `BASE` for which `SHA::Option<BASE>` is specialised. -/
inductive Base
  | b256
  | b512
  deriving DecidableEq, Repr

/-- The value of the template parameter `BASE`. -/
def Base.BASE : Base → Nat
  | .b256 => 256
  | .b512 => 512

/-- Bytes of `Option<BASE>::word_t` (`uint32_t`, `uint64_t`). -/
def Base.wordBytes : Base → Nat
  | .b256 => 4
  | .b512 => 8

/-- Bits of `word_t`. -/
def Base.WORD (b : Base) : Nat := 8 * b.wordBytes

/-- Bytes of the block buffer: `Option<BASE>::ATOM`, i.e. `atom.size()`. -/
def Base.ATOM : Base → Nat
  | .b256 => 16 * 4
  | .b512 => 16 * 8

/-- Words of `Number<ITER, word_t>` (`bins()`): `CHAR_BIT * Option<BASE>::ITER / WORD`. -/
def Base.ITER (b : Base) : Nat :=
  match b with
  | .b256 => 8 * (64 * 4) / 32
  | .b512 => 8 * (80 * 8) / 64

/-- Bytes of `Option<BASE>::long_t`: `sizeof(uint64_t)`, `sizeof(uint128_t)`. -/
def Base.longBytes : Base → Nat
  | .b256 => 8
  | .b512 => 16

/-- `sigma0`. -/
def sigma0 : Base → Nat → Nat
  | .b256, number => rotr 32 number 7 ^^^ rotr 32 number 18 ^^^ (number >>> 3)
  | .b512, number => rotr 64 number 1 ^^^ rotr 64 number 8 ^^^ (number >>> 7)

/-- `sigma1`. -/
def sigma1 : Base → Nat → Nat
  | .b256, number => rotr 32 number 17 ^^^ rotr 32 number 19 ^^^ (number >>> 10)
  | .b512, number => rotr 64 number 19 ^^^ rotr 64 number 61 ^^^ (number >>> 6)

/-- `delta0`. -/
def delta0 : Base → Nat → Nat
  | .b256, number => rotr 32 number 2 ^^^ rotr 32 number 13 ^^^ rotr 32 number 22
  | .b512, number => rotr 64 number 28 ^^^ rotr 64 number 34 ^^^ rotr 64 number 39

/-- `delta1`. -/
def delta1 : Base → Nat → Nat
  | .b256, number => rotr 32 number 6 ^^^ rotr 32 number 11 ^^^ rotr 32 number 25
  | .b512, number => rotr 64 number 14 ^^^ rotr 64 number 18 ^^^ rotr 64 number 41

/-- `SHA<BASE, BASE>::SALT`. -/
def SALT : Base → List Nat
  | .b256 =>
    [0x428A2F98, 0x71374491, 0xB5C0FBCF, 0xE9B5DBA5,
     0x3956C25B, 0x59F111F1, 0x923F82A4, 0xAB1C5ED5,
     0xD807AA98, 0x12835B01, 0x243185BE, 0x550C7DC3,
     0x72BE5D74, 0x80DEB1FE, 0x9BDC06A7, 0xC19BF174,
     0xE49B69C1, 0xEFBE4786, 0x0FC19DC6, 0x240CA1CC,
     0x2DE92C6F, 0x4A7484AA, 0x5CB0A9DC, 0x76F988DA,
     0x983E5152, 0xA831C66D, 0xB00327C8, 0xBF597FC7,
     0xC6E00BF3, 0xD5A79147, 0x06CA6351, 0x14292967,
     0x27B70A85, 0x2E1B2138, 0x4D2C6DFC, 0x53380D13,
     0x650A7354, 0x766A0ABB, 0x81C2C92E, 0x92722C85,
     0xA2BFE8A1, 0xA81A664B, 0xC24B8B70, 0xC76C51A3,
     0xD192E819, 0xD6990624, 0xF40E3585, 0x106AA070,
     0x19A4C116, 0x1E376C08, 0x2748774C, 0x34B0BCB5,
     0x391C0CB3, 0x4ED8AA4A, 0x5B9CCA4F, 0x682E6FF3,
     0x748F82EE, 0x78A5636F, 0x84C87814, 0x8CC70208,
     0x90BEFFFA, 0xA4506CEB, 0xBEF9A3F7, 0xC67178F2]
  | .b512 =>
    [0x428A2F98D728AE22, 0x7137449123EF65CD, 0xB5C0FBCFEC4D3B2F, 0xE9B5DBA58189DBBC,
     0x3956C25BF348B538, 0x59F111F1B605D019, 0x923F82A4AF194F9B, 0xAB1C5ED5DA6D8118,
     0xD807AA98A3030242, 0x12835B0145706FBE, 0x243185BE4EE4B28C, 0x550C7DC3D5FFB4E2,
     0x72BE5D74F27B896F, 0x80DEB1FE3B1696B1, 0x9BDC06A725C71235, 0xC19BF174CF692694,
     0xE49B69C19EF14AD2, 0xEFBE4786384F25E3, 0x0FC19DC68B8CD5B5, 0x240CA1CC77AC9C65,
     0x2DE92C6F592B0275, 0x4A7484AA6EA6E483, 0x5CB0A9DCBD41FBD4, 0x76F988DA831153B5,
     0x983E5152EE66DFAB, 0xA831C66D2DB43210, 0xB00327C898FB213F, 0xBF597FC7BEEF0EE4,
     0xC6E00BF33DA88FC2, 0xD5A79147930AA725, 0x06CA6351E003826F, 0x142929670A0E6E70,
     0x27B70A8546D22FFC, 0x2E1B21385C26C926, 0x4D2C6DFC5AC42AED, 0x53380D139D95B3DF,
     0x650A73548BAF63DE, 0x766A0ABB3C77B2A8, 0x81C2C92E47EDAEE6, 0x92722C851482353B,
     0xA2BFE8A14CF10364, 0xA81A664BBC423001, 0xC24B8B70D0F89791, 0xC76C51A30654BE30,
     0xD192E819D6EF5218, 0xD69906245565A910, 0xF40E35855771202A, 0x106AA07032BBD1B8,
     0x19A4C116B8D2D0C8, 0x1E376C085141AB53, 0x2748774CDF8EEB99, 0x34B0BCB5E19B48A8,
     0x391C0CB3C5C95A63, 0x4ED8AA4AE3418ACB, 0x5B9CCA4F7763E373, 0x682E6FF3D6B2B8A3,
     0x748F82EE5DEFB2FC, 0x78A5636F43172F60, 0x84C87814A1F0AB72, 0x8CC702081A6439EC,
     0x90BEFFFA23631E28, 0xA4506CEBDE82BDE9, 0xBEF9A3F7B2C67915, 0xC67178F2E372532B,
     0xCA273ECEEA26619C, 0xD186B8C721C0C207, 0xEADA7DD6CDE0EB1E, 0xF57D4F7FEE6ED178,
     0x06F067AA72176FBA, 0x0A637DC5A2C898A6, 0x113F9804BEF90DAE, 0x1B710B35131C471B,
     0x28DB77F523047D84, 0x32CAAB7B40C72493, 0x3C9EBE0A15C9BEBC, 0x431D67C49C100D4C,
     0x4CC5D4BECB3E42B6, 0x597F299CFC657E2A, 0x5FCB6FAB3AD6FAEC, 0x6C44198C4A475817]

/-- The instantiations `SHA<BASE, SIZE>` for which `sha.h` defines a `SEED`. -/
inductive Variant
  | sha256_224
  | sha256_256
  | sha512_224
  | sha512_256
  | sha512_384
  | sha512_512
  deriving DecidableEq, Repr

/-- The template parameter `BASE` of a variant. -/
def Variant.base : Variant → Base
  | .sha256_224 => .b256
  | .sha256_256 => .b256
  | .sha512_224 => .b512
  | .sha512_256 => .b512
  | .sha512_384 => .b512
  | .sha512_512 => .b512

/-- The template parameter `SIZE` of a variant. -/
def Variant.SIZE : Variant → Nat
  | .sha256_224 => 224
  | .sha256_256 => 256
  | .sha512_224 => 224
  | .sha512_256 => 256
  | .sha512_384 => 384
  | .sha512_512 => 512

/-- `SHA<BASE, SIZE>::SEED`. -/
def SEED : Variant → List Nat
  | .sha256_224 =>
    [0xC1059ED8, 0x367CD507, 0x3070DD17, 0xF70E5939,
     0xFFC00B31, 0x68581511, 0x64F98FA7, 0xBEFA4FA4]
  | .sha256_256 =>
    [0x6A09E667, 0xBB67AE85, 0x3C6EF372, 0xA54FF53A,
     0x510E527F, 0x9B05688C, 0x1F83D9AB, 0x5BE0CD19]
  | .sha512_224 =>
    [0x8C3D37C819544DA2, 0x73E1996689DCD4D6, 0x1DFAB7AE32FF9C82, 0x679DD514582F9FCF,
     0x0F6D2B697BD44DA8, 0x77E36F7304C48942, 0x3F9D85A86A1D36C8, 0x1112E6AD91D692A1]
  | .sha512_256 =>
    [0x22312194FC2BF72C, 0x9F555FA3C84C64C2, 0x2393B86B6F53B151, 0x963877195940EABD,
     0x96283EE2A88EFFE3, 0xBE5E1E2553863992, 0x2B0199FC2C85B8AA, 0x0EB72DDC81C52CA2]
  | .sha512_384 =>
    [0xCBBB9D5DC1059ED8, 0x629A292A367CD507, 0x9159015A3070DD17, 0x152FECD8F70E5939,
     0x67332667FFC00B31, 0x8EB44A8768581511, 0xDB0C2E0D64F98FA7, 0x47B5481DBEFA4FA4]
  | .sha512_512 =>
    [0x6A09E667F3BCC908, 0xBB67AE8584CAA73B, 0x3C6EF372FE94F82B, 0xA54FF53A5F1D36F1,
     0x510E527FADE682D1, 0x9B05688C2B3E6C1F, 0x1F83D9ABFB41BD6B, 0x5BE0CD19137E2179]

/-- The engine `SHA<BASE, SIZE>`: the running state `hash`, the block buffer `atom`, the number
`offs` of buffered bytes and the number `size` of bytes inserted. -/
structure SHA where
  hash : List Nat
  atom : List Nat
  offs : Nat
  size : Nat
  deriving DecidableEq, Repr

/-- `SHA()`: `hash{SEED}`, a zero-initialised `atom`, `offs(0)`, `size(0)`. -/
def SHA.init (v : Variant) : SHA :=
  { hash := SEED v, atom := List.replicate v.base.ATOM 0, offs := 0, size := 0 }

/-- `memcpy(&target[offset], source, source.length)` and `memset` alike: the bytes of `source`
overwrite `target` from index `offset` on. A write past the end of `target` is undefined in the
source; here the bytes that fall outside are dropped. -/
def memcpy (target : List Nat) (offset : Nat) (source : List Nat) : List Nat :=
  (target.take offset ++ source ++ target.drop (offset + source.length)).take target.length

/-- `capacity()`: `size_t(atom.size() - offs)`. -/
def SHA.capacity (b : Base) (s : SHA) : Nat :=
  (SIZE_T + b.ATOM - s.offs) % SIZE_T

/-- One pass of the third loop of `encode()`: the round with index `i`. -/
def SHA.round (b : Base) (pseudo digest : List Nat) (i : Nat) : List Nat :=
  let t1 := (pseudo.getD i 0 + (SALT b).getD i 0 + digest.getD 7 0 +
    delta1 b (digest.getD 4 0) +
    cho3 (digest.getD 4 0) (digest.getD 5 0) (digest.getD 6 0)) % 2 ^ b.WORD
  let t2 := (delta0 b (digest.getD 0 0) +
    maj3 (digest.getD 0 0) (digest.getD 1 0) (digest.getD 2 0)) % 2 ^ b.WORD
  let digest := digest.set 7 (digest.getD 6 0)
  let digest := digest.set 6 (digest.getD 5 0)
  let digest := digest.set 5 (digest.getD 4 0)
  let digest := digest.set 4 ((digest.getD 3 0 + t1) % 2 ^ b.WORD)
  let digest := digest.set 3 (digest.getD 2 0)
  let digest := digest.set 2 (digest.getD 1 0)
  let digest := digest.set 1 (digest.getD 0 0)
  digest.set 0 ((t1 + t2) % 2 ^ b.WORD)

/-- The value `encode()` leaves in `hash`, from the values of `hash` and `atom` before. -/
def SHA.compress (b : Base) (hash atom : List Nat) : List Nat :=
  let digest := hash
  let pseudo := Number.convert 1 b.wordBytes b.ITER atom
  let pseudo := (List.range 16).foldl
    (fun pseudo i => pseudo.set i (swap b.wordBytes (pseudo.getD i 0))) pseudo
  let pseudo := (List.range' 16 (pseudo.length - 16)).foldl
    (fun pseudo i => pseudo.set i
      ((pseudo.getD (i - 16) 0 + sigma0 b (pseudo.getD (i - 15) 0) +
        pseudo.getD (i - 7) 0 + sigma1 b (pseudo.getD (i - 2) 0)) % 2 ^ b.WORD)) pseudo
  let digest := (List.range pseudo.length).foldl (SHA.round b pseudo) digest
  (List.range hash.length).foldl
    (fun hash i => hash.set i ((hash.getD i 0 + digest.getD i 0) % 2 ^ b.WORD)) hash

/-- `encode()`. -/
def SHA.encode (b : Base) (s : SHA) : SHA :=
  { s with hash := SHA.compress b s.hash s.atom, offs := 0 }

/-- `number[offset] = value` with the subscript checked against `bins()`: `none` when `offset`
is outside the words of `number`. -/
def Number.assign (number : List Nat) (offset value : Nat) : Option (List Nat) :=
  if offset < number.length then some (number.set offset value) else none

/-- The round with index `i` of the third loop of `encode()`, whose body is the same in `sha.h`
and `rmd.h`, with every subscript checked against the `bins()` of its `Number`: `none` when a
subscript is outside. `salt` is the table of round constants. -/
def roundChecked (b : Base) (salt pseudo digest : List Nat) (i : Nat) : Option (List Nat) := do
  let some p := pseudo[i]? | none
  let some k := salt[i]? | none
  let some d7 := digest[7]? | none
  let some d4 := digest[4]? | none
  let some d5 := digest[5]? | none
  let some d6 := digest[6]? | none
  let t1 := (p + k + d7 + delta1 b d4 + cho3 d4 d5 d6) % 2 ^ b.WORD
  let some d0 := digest[0]? | none
  let some d1 := digest[1]? | none
  let some d2 := digest[2]? | none
  let t2 := (delta0 b d0 + maj3 d0 d1 d2) % 2 ^ b.WORD
  let some w := digest[6]? | none
  let some digest := Number.assign digest 7 w | none
  let some w := digest[5]? | none
  let some digest := Number.assign digest 6 w | none
  let some w := digest[4]? | none
  let some digest := Number.assign digest 5 w | none
  let some w := digest[3]? | none
  let some digest := Number.assign digest 4 ((w + t1) % 2 ^ b.WORD) | none
  let some w := digest[2]? | none
  let some digest := Number.assign digest 3 w | none
  let some w := digest[1]? | none
  let some digest := Number.assign digest 2 w | none
  let some w := digest[0]? | none
  let some digest := Number.assign digest 1 w | none
  Number.assign digest 0 ((t1 + t2) % 2 ^ b.WORD)

/-- The pass with index `i` of the first loop of `encode()`, `pseudo[i] = h2be(pseudo[i])`, with
the subscript checked. -/
def SHA.orderChecked (b : Base) (pseudo : List Nat) (i : Nat) : Option (List Nat) := do
  let some w := pseudo[i]? | none
  Number.assign pseudo i (swap b.wordBytes w)

/-- The pass with index `i` of the second loop of `encode()`,
`pseudo[i] = pseudo[i-16] + sigma0(pseudo[i-15]) + pseudo[i-7] + sigma1(pseudo[i-2])`, with every
subscript checked. -/
def SHA.expandChecked (b : Base) (pseudo : List Nat) (i : Nat) : Option (List Nat) := do
  let some w16 := pseudo[i - 16]? | none
  let some w15 := pseudo[i - 15]? | none
  let some w7 := pseudo[i - 7]? | none
  let some w2 := pseudo[i - 2]? | none
  Number.assign pseudo i ((w16 + sigma0 b w15 + w7 + sigma1 b w2) % 2 ^ b.WORD)

/-- The pass with index `i` of the fourth loop of `encode()`, `hash[i] += digest[i]`, with every
subscript checked. -/
def SHA.sumChecked (b : Base) (digest hash : List Nat) (i : Nat) : Option (List Nat) := do
  let some h := hash[i]? | none
  let some d := digest[i]? | none
  Number.assign hash i ((h + d) % 2 ^ b.WORD)

/-- The value `encode()` of `sha.h` leaves in `hash`, with every subscript of its four loops
checked against the `bins()` of its `Number`: `none` when a subscript is outside. -/
def SHA.compressChecked (b : Base) (hash atom : List Nat) : Option (List Nat) := do
  let digest := hash
  let pseudo := Number.convert 1 b.wordBytes b.ITER atom
  let some pseudo := (List.range 16).foldlM (SHA.orderChecked b) pseudo | none
  let some pseudo := (List.range' 16 (pseudo.length - 16)).foldlM (SHA.expandChecked b) pseudo
    | none
  let some digest := (List.range pseudo.length).foldlM (roundChecked b (SALT b) pseudo) digest
    | none
  (List.range hash.length).foldlM (SHA.sumChecked b digest) hash

/-- `RMD<160>::SEED`, the five words of the `Number<160, uint32_t>` state. -/
def RMD.SEED : List Nat :=
  [0x67452301, 0xEFCDAB89, 0x98BADCFE, 0x10325476, 0xC3D2E1F0]

/-- The round with index `i` of the third loop of `RMD::encode()`, on `uint32_t` words, with
every subscript checked. `rmd.h` does not declare `ITER`, the width of `pseudo` and of the table
`SALT`: both are taken as they come. -/
def RMD.round (salt pseudo digest : List Nat) (i : Nat) : Option (List Nat) :=
  roundChecked .b256 salt pseudo digest i

/-- The `while` loop of `insert(const byte_t *record, const size_t &length)` followed by the
`memcpy` of the tail and `offs += remain`; `record` holds the bytes not yet copied.
`none`: the loop did not end within `fuel` passes. -/
def SHA.insertLoop (b : Base) : Nat → SHA → List Nat → Option SHA
  | 0, _, _ => none
  | fuel + 1, s, record =>
    let volume := s.capacity b
    if volume ≤ record.length then
      SHA.insertLoop b fuel
        (SHA.encode b { s with atom := memcpy s.atom s.offs (record.take volume) })
        (record.drop volume)
    else
      some { s with atom := memcpy s.atom s.offs record,
                    offs := (s.offs + record.length) % SIZE_T }

/-- `insert(const byte_t *record, const size_t &length)`. The loop is given `length + 2` passes,
which it never exhausts (`SHA.insertLoop_isSome`). -/
def SHA.insert (b : Base) (s : SHA) (record : List Nat) : SHA :=
  match SHA.insertLoop b (record.length + 2) s record with
  | some t => { t with size := (t.size + record.length) % SIZE_T }
  | none => s

/-- The `while` loop of `insert(const size_t &length, const byte_t &record)` followed by the
`memset` of the tail and `offs += remain`. `none`: the loop did not end within `fuel` passes. -/
def SHA.fillLoop (b : Base) (record : Nat) : Nat → SHA → Nat → Option SHA
  | 0, _, _ => none
  | fuel + 1, s, remain =>
    let volume := s.capacity b
    if volume ≤ remain then
      SHA.fillLoop b record fuel
        (SHA.encode b { s with atom := memcpy s.atom s.offs (List.replicate volume record) })
        (remain - volume)
    else
      some { s with atom := memcpy s.atom s.offs (List.replicate remain record),
                    offs := (s.offs + remain) % SIZE_T }

/-- `insert(const size_t &length, const byte_t &record = 0)`. The loop is given `length + 2`
passes, which it never exhausts (`SHA.fillLoop_isSome`). -/
def SHA.fill (b : Base) (s : SHA) (length : Nat) (record : Nat) : SHA :=
  match SHA.fillLoop b record (length + 2) s length with
  | some t => { t with size := (t.size + length) % SIZE_T }
  | none => s

/-- `update(const void *record, const size_t &length)`. -/
def SHA.update (b : Base) (s : SHA) (record : List Nat) : SHA :=
  SHA.insert b s record

/-- The bytes of `length` in `finish()`: `h2be(long_t(size) * CHAR_BIT)`. For `BASE = 512` the
`long_t` is `uint128_t`, a `Number<128, uint32_t>` built from the 8 bytes of `size`. -/
def SHA.length (b : Base) (size : Nat) : List Nat :=
  match b with
  | .b256 => toBytes 8 (swap 8 (size * 8 % SIZE_T))
  | .b512 => Number.bytes 4 (Number.swap 4
      (Number.mulAssign 32 8 (Number.load 4 4 (toBytes 8 size)) 0))

/-- `finish()`: the engine afterwards and the returned `Number<SIZE>`, as bytes. -/
def SHA.finish (v : Variant) (s : SHA) : SHA × List Nat :=
  let b := v.base
  let length := SHA.length b s.size
  let offset := b.ATOM - b.longBytes
  let s := SHA.fill b s 1 0x80
  let s := if s.offs > offset then SHA.fill b s (s.capacity b) 0 else s
  let s := SHA.fill b s ((SIZE_T + offset - s.offs) % SIZE_T) 0
  let s := SHA.update b s length
  let s := { s with hash := s.hash.map (swap b.wordBytes), offs := b.BASE }
  (s, Number.convert b.wordBytes 1 (v.SIZE / 8) s.hash)

/-- `digest()`: the engine afterwards and the returned `Number<SIZE>`, as bytes. -/
def SHA.digest (v : Variant) (s : SHA) : SHA × List Nat :=
  if s.offs = v.base.BASE then (s, Number.convert v.base.wordBytes 1 (v.SIZE / 8) s.hash)
  else SHA.finish v s

/-- `sha<BASE, SIZE>(record, length)`. -/
def sha (v : Variant) (record : List Nat) : List Nat :=
  (SHA.digest v (SHA.update v.base (SHA.init v) record)).2

/-- The number of calls of `encode()` in the `while` loop of
`insert(const byte_t *record, const size_t &length)`: one in every pass, within `fuel` passes. -/
def SHA.insertPasses (b : Base) : Nat → SHA → List Nat → Nat
  | 0, _, _ => 0
  | fuel + 1, s, record =>
    let volume := s.capacity b
    if volume ≤ record.length then
      SHA.insertPasses b fuel
        (SHA.encode b { s with atom := memcpy s.atom s.offs (record.take volume) })
        (record.drop volume) + 1
    else 0

/-- The number of calls of `encode()` in `update(record, length)`. -/
def SHA.updatePasses (b : Base) (s : SHA) (record : List Nat) : Nat :=
  SHA.insertPasses b (record.length + 2) s record

/-- The number of calls of `encode()` in a sequence of `update` calls. -/
def SHA.passes (b : Base) : SHA → List (List Nat) → Nat
  | _, [] => 0
  | s, record :: records =>
    SHA.updatePasses b s record + SHA.passes b (SHA.update b s record) records

/-- The number of calls of `encode()` in the `while` loop of
`insert(const size_t &length, const byte_t &record)`: one in every pass, within `fuel` passes. -/
def SHA.fillPasses (b : Base) (record : Nat) : Nat → SHA → Nat → Nat
  | 0, _, _ => 0
  | fuel + 1, s, remain =>
    let volume := s.capacity b
    if volume ≤ remain then
      SHA.fillPasses b record fuel
        (SHA.encode b { s with atom := memcpy s.atom s.offs (List.replicate volume record) })
        (remain - volume) + 1
    else 0

/-- The number of calls of `encode()` in `finish()`: those of its four `insert` calls, the
second of which is made only when `offs > offset`. -/
def SHA.finishPasses (v : Variant) (s : SHA) : Nat :=
  let b := v.base
  let length := SHA.length b s.size
  let offset := b.ATOM - b.longBytes
  let first := SHA.fillPasses b 0x80 (1 + 2) s 1
  let s := SHA.fill b s 1 0x80
  let second := if s.offs > offset then SHA.fillPasses b 0 (s.capacity b + 2) s (s.capacity b)
    else 0
  let s := if s.offs > offset then SHA.fill b s (s.capacity b) 0 else s
  let third := SHA.fillPasses b 0 ((SIZE_T + offset - s.offs) % SIZE_T + 2) s
    ((SIZE_T + offset - s.offs) % SIZE_T)
  let s := SHA.fill b s ((SIZE_T + offset - s.offs) % SIZE_T) 0
  first + second + third + SHA.updatePasses b s length

/-! ## Reference notions the engine is compared with -/

/-- The `L` bytes of the big-endian serialization of `x`. -/
def bigEndian (L x : Nat) : List Nat :=
  (toBytes L x).reverse

/-- The first `k` consecutive blocks of `B` bytes of `data`. -/
def blocks (B : Nat) : Nat → List Nat → List (List Nat)
  | 0, _ => []
  | k + 1, data => data.take B :: blocks B k (data.drop B)

/-- The bytes of `data` behind its last whole block of `B` bytes. -/
def rest (B : Nat) (data : List Nat) : List Nat :=
  data.drop (data.length / B * B)

/-- The state obtained by folding the compression function, starting from `seed`, over the
consecutive whole blocks of `data`. -/
def absorb (b : Base) (seed data : List Nat) : List Nat :=
  (blocks b.ATOM (data.length / b.ATOM) data).foldl (SHA.compress b) seed

/-- The big-endian serialization of a state: every word most significant byte first. -/
def wire (b : Base) (hash : List Nat) : List Nat :=
  (hash.map (bigEndian b.wordBytes)).flatten

/-- The number `k` of zero bytes of the padding of a message of `n` bytes, for blocks of `B`
bytes and a length field of `L` bytes. -/
def padZeros (B L n : Nat) : Nat :=
  (B - (n + 1 + L) % B) % B

/-- The padding of a message of `n` bytes: `0x80`, `k` zero bytes, the bit count `8 * n` as a
big-endian integer of `L` bytes. -/
def padding (b : Base) (n : Nat) : List Nat :=
  [0x80] ++ List.replicate (padZeros b.ATOM b.longBytes n) 0 ++ bigEndian b.longBytes (8 * n)

/-- The Merkle-Damgard reference digest: the first `SIZE / 8` bytes of the serialized state
reached from `SEED` over the blocks of the padded message. -/
def reference (v : Variant) (m : List Nat) : List Nat :=
  (wire v.base (absorb v.base (SEED v) (m ++ padding v.base m.length))).take (v.SIZE / 8)

/-- The choose function as it is commonly defined, on words of `WORD` bits:
`(x AND y) XOR ((NOT x) AND z)`. -/
def choose (WORD x y z : Nat) : Nat :=
  (x &&& y) ^^^ ((2 ^ WORD - 1 - x) &&& z)

/-- The bitwise majority as it is commonly defined: `(x AND y) XOR (x AND z) XOR (y AND z)`. -/
def majority (x y z : Nat) : Nat :=
  (x &&& y) ^^^ (x &&& z) ^^^ (y &&& z)

/-- The positional value in base `b` of a sequence of digits, most significant first: the sum
of `r_j * b ^ (k - j)` over the `k` digits `r_1 ... r_k`. -/
def positional (b : Nat) : List Nat → Nat
  | [] => 0
  | r :: rs => r * b ^ rs.length + positional b rs

/-- The two lowercase hexadecimal digits of each byte, in index order. -/
def hex (bytes : List Nat) : String :=
  String.mk (bytes.map (fun x => ["0123456789abcdef".toList.getD (x / 16) '0',
    "0123456789abcdef".toList.getD (x % 16) '0'])).flatten

/-- The engine `s` has taken in `data` since its state was `seed`: `hash` is the fold over the
whole blocks of `data`, the first `offs` bytes of `atom` are the bytes behind them. -/
structure SHA.Absorbed (b : Base) (seed data : List Nat) (s : SHA) : Prop where
  hash : s.hash = absorb b seed data
  pending : s.atom.take s.offs = rest b.ATOM data
  offs : s.offs = data.length % b.ATOM
  atom : s.atom.length = b.ATOM

/-- The numeric value of a `Number` with words of `WORD` bits, word 0 least significant. -/
def Number.value (WORD : Nat) : List Nat → Nat
  | [] => 0
  | w :: word => w + 2 ^ WORD * Number.value WORD word

/-- Every word of the `Number` fits its word type of `WORD` bits. -/
def Number.Valid (WORD : Nat) (word : List Nat) : Prop :=
  ∀ w ∈ word, w < 2 ^ WORD

/-! ## Blocks and the fold of the compression function -/

theorem Base.ATOM_pos (b : Base) : 0 < b.ATOM := by
  cases b <;> decide

theorem Base.ATOM_lt (b : Base) : b.ATOM < SIZE_T := by
  cases b <;> decide

theorem absorb_short (b : Base) (seed data : List Nat) (h : data.length < b.ATOM) :
    absorb b seed data = seed := by
  simp [absorb, Nat.div_eq_of_lt h, blocks]

theorem rest_short (B : Nat) (data : List Nat) (h : data.length < B) :
    rest B data = data := by
  simp [rest, Nat.div_eq_of_lt h]

theorem absorb_step (b : Base) (seed data : List Nat) (h : b.ATOM ≤ data.length) :
    absorb b seed data
      = absorb b (SHA.compress b seed (data.take b.ATOM)) (data.drop b.ATOM) := by
  have hk : data.length / b.ATOM = (data.length - b.ATOM) / b.ATOM + 1 := by
    rw [← Nat.div_eq_sub_div b.ATOM_pos h]
  simp only [absorb, hk, blocks, List.foldl_cons, List.length_drop]

theorem rest_step (B : Nat) (hB : 0 < B) (data : List Nat) (h : B ≤ data.length) :
    rest B data = rest B (data.drop B) := by
  have hk : data.length / B = (data.length - B) / B + 1 := by
    rw [← Nat.div_eq_sub_div hB h]
  simp only [rest, hk, List.length_drop, List.drop_drop]
  congr 1
  ring

theorem absorb_append (b : Base) (seed extra : List Nat) :
    ∀ (n : Nat) (data : List Nat), data.length ≤ n →
      absorb b seed (data ++ extra) = absorb b (absorb b seed data) (rest b.ATOM data ++ extra)
      ∧ rest b.ATOM (data ++ extra) = rest b.ATOM (rest b.ATOM data ++ extra) := by
  intro n
  induction n generalizing seed with
  | zero =>
    intro data h
    have : data = [] := List.eq_nil_of_length_eq_zero (by omega)
    subst this
    simp [absorb_short b seed [] b.ATOM_pos, rest_short b.ATOM [] b.ATOM_pos]
  | succ n ih =>
    intro data h
    by_cases hs : data.length < b.ATOM
    · rw [absorb_short b seed data hs, rest_short b.ATOM data hs]
      exact ⟨rfl, rfl⟩
    · have hB := b.ATOM_pos
      have hle : b.ATOM ≤ data.length := by omega
      have hle2 : b.ATOM ≤ (data ++ extra).length := by simp; omega
      have ht : (data ++ extra).take b.ATOM = data.take b.ATOM := by
        rw [List.take_append_of_le_length hle]
      have hd : (data ++ extra).drop b.ATOM = data.drop b.ATOM ++ extra := by
        rw [List.drop_append_of_le_length hle]
      have hlen : (data.drop b.ATOM).length ≤ n := by simp; omega
      obtain ⟨h1, h2⟩ := ih (SHA.compress b seed (data.take b.ATOM)) (data.drop b.ATOM) hlen
      rw [absorb_step b seed _ hle2, rest_step b.ATOM hB _ hle2, ht, hd, h1, h2,
        absorb_step b seed data hle, rest_step b.ATOM hB data hle]
      exact ⟨rfl, rfl⟩

theorem absorb_block (b : Base) (seed data : List Nat) (h : data.length = b.ATOM) :
    absorb b seed data = SHA.compress b seed data ∧ rest b.ATOM data = [] := by
  have hB := b.ATOM_pos
  constructor
  · rw [absorb_step b seed data (by omega), absorb_short]
    · rw [List.take_of_length_le (by omega)]
    · simp; omega
  · simp [rest, h, Nat.div_self hB]

theorem length_rest (B : Nat) (data : List Nat) : (rest B data).length = data.length % B := by
  simp only [rest, List.length_drop]
  have := Nat.div_add_mod data.length B
  have h2 : data.length / B * B = B * (data.length / B) := Nat.mul_comm _ _
  omega

/-! ## The buffer and the two `insert` loops -/

theorem SIZE_T_eq : SIZE_T = 18446744073709551616 := by
  decide

theorem length_memcpy (target : List Nat) (offset : Nat) (source : List Nat) :
    (memcpy target offset source).length = target.length := by
  simp only [memcpy, List.length_take, List.length_append, List.length_drop]
  omega

theorem memcpy_full (target : List Nat) (offset : Nat) (source : List Nat)
    (h : target.length = offset + source.length) :
    memcpy target offset source = target.take offset ++ source := by
  have h1 : target.drop (offset + source.length) = [] := by
    apply List.drop_eq_nil_of_le
    omega
  rw [memcpy, h1, List.append_nil]
  apply List.take_of_length_le
  simp only [List.length_append, List.length_take]
  omega

theorem take_memcpy (target : List Nat) (offset : Nat) (source : List Nat)
    (h : offset + source.length ≤ target.length) :
    (memcpy target offset source).take (offset + source.length)
      = target.take offset ++ source := by
  rw [memcpy, List.take_take, Nat.min_eq_left h, List.append_assoc,
    ← List.append_assoc, List.take_append_of_le_length]
  · apply List.take_of_length_le
    simp only [List.length_append, List.length_take]
    omega
  · simp only [List.length_append, List.length_take]
    omega

theorem SHA.Absorbed.offs_lt {b : Base} {seed data : List Nat} {s : SHA}
    (h : SHA.Absorbed b seed data s) : s.offs < b.ATOM := by
  rw [h.offs]
  exact Nat.mod_lt _ b.ATOM_pos

theorem SHA.Absorbed.capacity {b : Base} {seed data : List Nat} {s : SHA}
    (h : SHA.Absorbed b seed data s) : s.capacity b = b.ATOM - s.offs := by
  have h1 := h.offs_lt
  have h2 := b.ATOM_lt
  rw [SIZE_T_eq] at h2
  simp only [SHA.capacity, SIZE_T_eq]
  omega

theorem SHA.Absorbed.length_pending {b : Base} {seed data : List Nat} {s : SHA}
    (h : SHA.Absorbed b seed data s) : (rest b.ATOM data).length = s.offs := by
  rw [length_rest, h.offs]

/-- Every pass of the loop of `insert` keeps the engine in step with the data taken in, and
`length + 1` passes are enough for the loop to end. -/
theorem SHA.insertLoop_absorbed (b : Base) (seed : List Nat) :
    ∀ (fuel : Nat) (s : SHA) (record data : List Nat), SHA.Absorbed b seed data s →
      record.length + 1 ≤ fuel →
      ∃ t, SHA.insertLoop b fuel s record = some t
        ∧ SHA.Absorbed b seed (data ++ record) t ∧ t.size = s.size := by
  intro fuel
  induction fuel with
  | zero => intro s record data _ h; omega
  | succ fuel ih =>
    intro s record data hs hfuel
    have hcap := hs.capacity
    have hlt := hs.offs_lt
    have hpen := hs.length_pending
    obtain ⟨ha1, ha2⟩ := absorb_append b seed record data.length data (Nat.le_refl _)
    rw [SHA.insertLoop]
    by_cases hc : s.capacity b ≤ record.length
    · simp only [hc, if_true]
      obtain ⟨hb1, hb2⟩ := absorb_append b seed (record.take (s.capacity b))
        data.length data (Nat.le_refl _)
      have hlen : (rest b.ATOM data ++ record.take (s.capacity b)).length = b.ATOM := by
        simp only [List.length_append, List.length_take, hpen]
        omega
      obtain ⟨hc1, hc2⟩ := absorb_block b (absorb b seed data) _ hlen
      have hnext : SHA.Absorbed b seed (data ++ record.take (s.capacity b))
          (SHA.encode b
            { s with atom := memcpy s.atom s.offs (record.take (s.capacity b)) }) := by
        have hfull : memcpy s.atom s.offs (record.take (s.capacity b))
            = rest b.ATOM data ++ record.take (s.capacity b) := by
          rw [memcpy_full, hs.pending]
          simp only [List.length_take, hs.atom]
          omega
        refine ⟨?_, ?_, ?_, ?_⟩
        · simp only [SHA.encode, hfull, hs.hash, hb1, hc1]
        · simp only [SHA.encode, List.take_zero, hb2, hc2]
        · have := length_rest b.ATOM (data ++ record.take (s.capacity b))
          rw [hb2, hc2] at this
          simp only [SHA.encode]
          simpa using this
        · simp only [SHA.encode, length_memcpy, hs.atom]
      have hdrop : (record.drop (s.capacity b)).length + 1 ≤ fuel := by
        simp only [List.length_drop]
        omega
      obtain ⟨t, ht1, ht2, ht3⟩ := ih _ (record.drop (s.capacity b)) _ hnext hdrop
      refine ⟨t, ht1, ?_, ?_⟩
      · rw [List.append_assoc, List.take_append_drop] at ht2
        exact ht2
      · rw [ht3]
        simp only [SHA.encode]
    · simp only [hc, if_false]
      have hsum : s.offs + record.length < b.ATOM := by omega
      have hsmall : (rest b.ATOM data ++ record).length < b.ATOM := by
        simp only [List.length_append, hpen]
        omega
      have hmod : (s.offs + record.length) % SIZE_T = s.offs + record.length := by
        have h2 := b.ATOM_lt
        apply Nat.mod_eq_of_lt
        omega
      refine ⟨_, rfl, ⟨?_, ?_, ?_, ?_⟩, rfl⟩
      · simp only [hs.hash, ha1, absorb_short b _ _ hsmall]
      · simp only [hmod]
        rw [take_memcpy _ _ _ (by rw [hs.atom]; omega), hs.pending, ha2,
          rest_short _ _ hsmall]
      · have := length_rest b.ATOM (data ++ record)
        rw [ha2, rest_short _ _ hsmall] at this
        simp only [hmod]
        simp only [List.length_append, hpen] at this
        simpa using this
      · simp only [length_memcpy, hs.atom]

theorem SHA.insert_absorbed (b : Base) (seed : List Nat) (s : SHA) (record data : List Nat)
    (hs : SHA.Absorbed b seed data s) :
    SHA.Absorbed b seed (data ++ record) (SHA.insert b s record)
      ∧ (SHA.insert b s record).size = (s.size + record.length) % SIZE_T := by
  obtain ⟨t, ht1, ht2, ht3⟩ :=
    SHA.insertLoop_absorbed b seed (record.length + 2) s record data hs (by omega)
  simp only [SHA.insert, ht1, ht3]
  exact ⟨⟨ht2.hash, ht2.pending, ht2.offs, ht2.atom⟩, trivial⟩

theorem SHA.fillLoop_eq (b : Base) (record : Nat) :
    ∀ (fuel : Nat) (s : SHA) (remain : Nat),
      SHA.fillLoop b record fuel s remain
        = SHA.insertLoop b fuel s (List.replicate remain record) := by
  intro fuel
  induction fuel with
  | zero => intro s remain; rfl
  | succ fuel ih =>
    intro s remain
    rw [SHA.fillLoop, SHA.insertLoop]
    simp only [List.length_replicate]
    by_cases hc : s.capacity b ≤ remain
    · simp only [hc, if_true, ih, List.take_replicate, List.drop_replicate,
        Nat.min_eq_left hc]
    · simp only [hc, if_false]

theorem SHA.fill_eq (b : Base) (s : SHA) (length record : Nat) :
    SHA.fill b s length record = SHA.insert b s (List.replicate length record) := by
  simp only [SHA.fill, SHA.insert, SHA.fillLoop_eq, List.length_replicate]

theorem SHA.init_absorbed (v : Variant) : SHA.Absorbed v.base (SEED v) [] (SHA.init v) := by
  have hB := v.base.ATOM_pos
  refine ⟨?_, ?_, ?_, ?_⟩
  · rw [absorb_short _ _ _ (by simpa using hB)]
    rfl
  · simp [SHA.init, rest]
  · simp [SHA.init]
  · simp [SHA.init]

theorem SHA.capacity_encode (b : Base) (s : SHA) : (SHA.encode b s).capacity b = b.ATOM := by
  have h := b.ATOM_lt
  rw [SIZE_T_eq] at h
  simp only [SHA.capacity, SHA.encode, SIZE_T_eq]
  omega

theorem SHA.insertLoop_isSome_aux (b : Base) :
    ∀ (fuel : Nat) (s : SHA) (record : List Nat), s.capacity b ≠ 0 →
      record.length + 1 ≤ fuel → ∃ t, SHA.insertLoop b fuel s record = some t := by
  intro fuel
  induction fuel with
  | zero => intro s record _ h; omega
  | succ fuel ih =>
    intro s record hcap hfuel
    rw [SHA.insertLoop]
    by_cases hc : s.capacity b ≤ record.length
    · simp only [hc, if_true]
      apply ih
      · rw [SHA.capacity_encode]
        exact Nat.ne_of_gt b.ATOM_pos
      · simp only [List.length_drop]
        omega
    · simp only [hc, if_false]
      exact ⟨_, rfl⟩

/-- The loop of `insert(const byte_t*, const size_t&)` ends within `length + 2` passes, from
every state of the engine. -/
theorem SHA.insertLoop_isSome (b : Base) (s : SHA) (record : List Nat) :
    ∃ t, SHA.insertLoop b (record.length + 2) s record = some t := by
  rw [SHA.insertLoop]
  by_cases hc : s.capacity b ≤ record.length
  · simp only [hc, if_true]
    apply SHA.insertLoop_isSome_aux
    · rw [SHA.capacity_encode]
      exact Nat.ne_of_gt b.ATOM_pos
    · simp only [List.length_drop]
      omega
  · simp only [hc, if_false]
    exact ⟨_, rfl⟩

/-- The loop of `insert(const size_t&, const byte_t&)` ends within `length + 2` passes, from
every state of the engine. -/
theorem SHA.fillLoop_isSome (b : Base) (s : SHA) (length record : Nat) :
    ∃ t, SHA.fillLoop b record (length + 2) s length = some t := by
  have h := SHA.insertLoop_isSome b s (List.replicate length record)
  rw [List.length_replicate] at h
  rw [SHA.fillLoop_eq]
  exact h

/-! ## Words and their bytes -/

theorem length_toBytes (n x : Nat) : (toBytes n x).length = n := by
  induction n generalizing x with
  | zero => rfl
  | succ n ih => simp [toBytes, ih]

theorem toBytes_lt (n x : Nat) : ∀ y ∈ toBytes n x, y < 256 := by
  induction n generalizing x with
  | zero => intro y hy; simp [toBytes] at hy
  | succ n ih =>
    intro y hy
    simp only [toBytes, List.mem_cons] at hy
    rcases hy with rfl | hy
    · exact Nat.mod_lt _ (by decide)
    · exact ih _ y hy

theorem toBytes_ofBytes (l : List Nat) (h : ∀ y ∈ l, y < 256) :
    toBytes l.length (ofBytes l) = l := by
  induction l with
  | nil => rfl
  | cons y l ih =>
    have hy : y < 256 := h y (List.mem_cons_self _ _)
    have hl : ∀ z ∈ l, z < 256 := fun z hz => h z (List.mem_cons_of_mem _ hz)
    simp only [List.length_cons, toBytes, ofBytes]
    have h1 : (y + 256 * ofBytes l) % 256 = y := by omega
    have h2 : (y + 256 * ofBytes l) / 256 = ofBytes l := by omega
    rw [h1, h2, ih hl]

theorem toBytes_swap (n x : Nat) : toBytes n (swap n x) = bigEndian n x := by
  have h := toBytes_ofBytes (toBytes n x).reverse
    (fun y hy => toBytes_lt n x y (List.mem_reverse.mp hy))
  rw [List.length_reverse, length_toBytes] at h
  exact h

theorem bytes_map_swap (b : Base) (hash : List Nat) :
    Number.bytes b.wordBytes (hash.map (swap b.wordBytes)) = wire b hash := by
  simp only [Number.bytes, wire, List.map_map]
  congr 1
  apply List.map_congr_left
  intro x _
  exact toBytes_swap _ x

theorem load_one (k : Nat) : ∀ l : List Nat, k ≤ l.length → Number.load 1 k l = l.take k := by
  induction k with
  | zero => intro l _; simp [Number.load]
  | succ k ih =>
    intro l h
    cases l with
    | nil => simp at h
    | cons x l =>
      simp only [List.length_cons, Nat.add_le_add_iff_right] at h
      simp [Number.load, ofBytes, ih l h]

theorem length_wire (b : Base) (hash : List Nat) :
    (wire b hash).length = b.wordBytes * hash.length := by
  induction hash with
  | nil => simp [wire]
  | cons x hash ih =>
    simp only [wire, List.map_cons, List.flatten_cons, List.length_append] at ih ⊢
    rw [ih, bigEndian, List.length_reverse, length_toBytes, List.length_cons]
    ring

/-- The returned `Number<SIZE>` holds the leading bytes of the serialized state. -/
theorem convert_map_swap (b : Base) (k : Nat) (hash : List Nat)
    (h : k ≤ b.wordBytes * hash.length) :
    Number.convert b.wordBytes 1 k (hash.map (swap b.wordBytes)) = (wire b hash).take k := by
  rw [Number.convert, bytes_map_swap, Nat.one_mul, load_one, List.take_take, Nat.min_self]
  rw [List.length_take, length_wire]
  omega

/-! ## The state keeps its eight words -/

theorem length_foldl_set {β : Type} (f : List Nat → β → Nat) (g : β → Nat) (l : List β)
    (init : List Nat) :
    (l.foldl (fun acc i => acc.set (g i) (f acc i)) init).length = init.length := by
  induction l generalizing init with
  | nil => rfl
  | cons x l ih => simp [ih]

theorem SHA.length_compress (b : Base) (hash atom : List Nat) :
    (SHA.compress b hash atom).length = hash.length := by
  simp only [SHA.compress]
  exact length_foldl_set _ (fun i => i) _ _

theorem length_absorb (b : Base) (seed data : List Nat) :
    (absorb b seed data).length = seed.length := by
  simp only [absorb]
  generalize blocks b.ATOM (data.length / b.ATOM) data = bs
  induction bs generalizing seed with
  | nil => rfl
  | cons x bs ih => simp [ih, SHA.length_compress]

theorem length_SEED (v : Variant) : (SEED v).length = 8 := by
  cases v <;> rfl

/-! ## `finish()` -/

theorem Base.sizes (b : Base) :
    (b.ATOM = 64 ∧ b.longBytes = 8 ∧ b.BASE = 256 ∧ b.wordBytes = 4)
      ∨ (b.ATOM = 128 ∧ b.longBytes = 16 ∧ b.BASE = 512 ∧ b.wordBytes = 8) := by
  cases b
  · exact Or.inl ⟨rfl, rfl, rfl, rfl⟩
  · exact Or.inr ⟨rfl, rfl, rfl, rfl⟩

theorem length_mulAssign (WORD rvalue : Nat) (word : List Nat) (remain : Nat) :
    (Number.mulAssign WORD rvalue word remain).length = word.length := by
  induction word generalizing remain with
  | nil => rfl
  | cons w word ih => simp [Number.mulAssign, ih]

theorem length_load (n bins : Nat) (source : List Nat) :
    (Number.load n bins source).length = bins := by
  induction bins generalizing source with
  | zero => rfl
  | succ bins ih => simp [Number.load, ih]

theorem length_bytes (n : Nat) (word : List Nat) :
    (Number.bytes n word).length = n * word.length := by
  induction word with
  | nil => simp [Number.bytes]
  | cons x word ih =>
    simp only [Number.bytes, List.map_cons, List.flatten_cons, List.length_append] at ih ⊢
    rw [ih, length_toBytes, List.length_cons]
    ring

theorem SHA.length_length (b : Base) (size : Nat) : (SHA.length b size).length = b.longBytes := by
  cases b
  · simp [SHA.length, length_toBytes, Base.longBytes]
  · simp [SHA.length, length_bytes, Number.swap, length_mulAssign, length_load, Base.longBytes]

/-- The padding `finish()` writes, in terms of the data taken in before. -/
theorem SHA.finish_absorbed (v : Variant) (seed data : List Nat) (s : SHA)
    (hs : SHA.Absorbed v.base seed data s) :
    (SHA.finish v s).2
      = Number.convert v.base.wordBytes 1 (v.SIZE / 8)
          ((absorb v.base seed (data ++ [0x80]
            ++ List.replicate (padZeros v.base.ATOM v.base.longBytes data.length) 0
            ++ SHA.length v.base s.size)).map (swap v.base.wordBytes)) := by
  have h1 : SHA.Absorbed v.base seed (data ++ [0x80]) (SHA.fill v.base s 1 0x80) := by
    rw [SHA.fill_eq]
    exact (SHA.insert_absorbed v.base seed s (List.replicate 1 0x80) data hs).1
  have hz : ∃ z, SHA.Absorbed v.base seed (data ++ [0x80] ++ List.replicate z 0)
      (SHA.fill v.base
        (if (SHA.fill v.base s 1 0x80).offs > v.base.ATOM - v.base.longBytes then
          SHA.fill v.base (SHA.fill v.base s 1 0x80)
            ((SHA.fill v.base s 1 0x80).capacity v.base) 0
         else SHA.fill v.base s 1 0x80)
        ((SIZE_T + (v.base.ATOM - v.base.longBytes)
          - (if (SHA.fill v.base s 1 0x80).offs > v.base.ATOM - v.base.longBytes then
              SHA.fill v.base (SHA.fill v.base s 1 0x80)
                ((SHA.fill v.base s 1 0x80).capacity v.base) 0
             else SHA.fill v.base s 1 0x80).offs) % SIZE_T) 0)
      ∧ z = padZeros v.base.ATOM v.base.longBytes data.length := by
    have ho1 := h1.offs
    have hc1 := h1.capacity
    simp only [List.length_append, List.length_singleton] at ho1
    by_cases hgt : (SHA.fill v.base s 1 0x80).offs > v.base.ATOM - v.base.longBytes
    · simp only [hgt, if_true]
      obtain ⟨h2, _⟩ := SHA.insert_absorbed v.base seed _
        (List.replicate ((SHA.fill v.base s 1 0x80).capacity v.base) 0) _ h1
      rw [← SHA.fill_eq] at h2
      have ho2 := h2.offs
      simp only [List.length_append, List.length_singleton, List.length_replicate] at ho2
      obtain ⟨h3, _⟩ := SHA.insert_absorbed v.base seed _
        (List.replicate ((SIZE_T + (v.base.ATOM - v.base.longBytes)
          - (SHA.fill v.base (SHA.fill v.base s 1 0x80)
              ((SHA.fill v.base s 1 0x80).capacity v.base) 0).offs) % SIZE_T) 0) _ h2
      rw [← SHA.fill_eq, List.append_assoc (data ++ [0x80]), ← List.replicate_add] at h3
      refine ⟨_, h3, ?_⟩
      simp only [padZeros, SIZE_T_eq]
      rcases v.base.sizes with ⟨e1, e2, _, _⟩ | ⟨e1, e2, _, _⟩ <;>
        simp only [e1, e2] at * <;> omega
    · simp only [hgt, if_false]
      obtain ⟨h3, _⟩ := SHA.insert_absorbed v.base seed _
        (List.replicate ((SIZE_T + (v.base.ATOM - v.base.longBytes)
          - (SHA.fill v.base s 1 0x80).offs) % SIZE_T) 0) _ h1
      rw [← SHA.fill_eq] at h3
      refine ⟨_, h3, ?_⟩
      simp only [padZeros, SIZE_T_eq]
      rcases v.base.sizes with ⟨e1, e2, _, _⟩ | ⟨e1, e2, _, _⟩ <;>
        simp only [e1, e2] at * <;> omega
  obtain ⟨z, h3, rfl⟩ := hz
  obtain ⟨h4, _⟩ := SHA.insert_absorbed v.base seed _ (SHA.length v.base s.size) _ h3
  simp only [SHA.finish, SHA.update, h4.hash]

/-! ## `digest()` in terms of the data taken in -/

theorem SHA.digest_absorbed (v : Variant) (data : List Nat) (s : SHA)
    (hs : SHA.Absorbed v.base (SEED v) data s) :
    (SHA.digest v s).2
      = (wire v.base (absorb v.base (SEED v) (data ++ [0x80]
          ++ List.replicate (padZeros v.base.ATOM v.base.longBytes data.length) 0
          ++ SHA.length v.base s.size))).take (v.SIZE / 8) := by
  have hne : s.offs ≠ v.base.BASE := by
    have := hs.offs_lt
    rcases v.base.sizes with ⟨e1, _, e3, _⟩ | ⟨e1, _, e3, _⟩ <;> omega
  rw [SHA.digest, if_neg hne, SHA.finish_absorbed v _ _ _ hs, convert_map_swap]
  rw [length_absorb, length_SEED]
  clear hs hne
  cases v <;> decide

theorem sha_eq_absorb (v : Variant) (m : List Nat) :
    sha v m
      = (wire v.base (absorb v.base (SEED v) (m ++ [0x80]
          ++ List.replicate (padZeros v.base.ATOM v.base.longBytes m.length) 0
          ++ SHA.length v.base (m.length % SIZE_T)))).take (v.SIZE / 8) := by
  have h0 := SHA.insert_absorbed v.base (SEED v) (SHA.init v) m [] (SHA.init_absorbed v)
  rw [List.nil_append] at h0
  obtain ⟨ha, hsize⟩ := h0
  have hsize2 : (SHA.insert v.base (SHA.init v) m).size = m.length % SIZE_T := by
    rw [hsize]
    show (0 + m.length) % SIZE_T = m.length % SIZE_T
    rw [Nat.zero_add]
  have h := SHA.digest_absorbed v m _ ha
  rw [hsize2] at h
  rw [sha, SHA.update]
  exact h

/-- The length field for `BASE = 256`. -/
theorem SHA.length_b256 (n : Nat) (h : n < 2 ^ 61) :
    SHA.length .b256 (n % SIZE_T) = bigEndian 8 (8 * n) := by
  have h1 : n % SIZE_T = n := Nat.mod_eq_of_lt (by rw [SIZE_T_eq]; omega)
  have h2 : n * 8 % SIZE_T = 8 * n := by rw [SIZE_T_eq]; omega
  simp only [SHA.length, h1, h2, toBytes_swap]

/-! ## Arithmetic of `Number` -/

theorem Number.Valid.tail {WORD w : Nat} {word : List Nat} (h : Number.Valid WORD (w :: word)) :
    Number.Valid WORD word :=
  fun x hx => h x (List.mem_cons_of_mem _ hx)

theorem Number.Valid.head {WORD w : Nat} {word : List Nat} (h : Number.Valid WORD (w :: word)) :
    w < 2 ^ WORD :=
  h w (List.mem_cons_self _ _)

theorem Number.valid_cons {WORD w : Nat} {word : List Nat} (hw : w < 2 ^ WORD)
    (h : Number.Valid WORD word) : Number.Valid WORD (w :: word) := by
  intro x hx
  rcases List.mem_cons.mp hx with rfl | hx
  · exact hw
  · exact h x hx

theorem Number.value_lt (WORD : Nat) (word : List Nat) (h : Number.Valid WORD word) :
    Number.value WORD word < 2 ^ (WORD * word.length) := by
  induction word with
  | nil => simp [Number.value]
  | cons w word ih =>
    have hw := h.head
    have ht := ih h.tail
    have hp : 2 ^ (WORD * (word.length + 1)) = 2 ^ WORD * 2 ^ (WORD * word.length) := by
      rw [Nat.mul_succ, Nat.pow_add, Nat.mul_comm]
    simp only [Number.value, List.length_cons, hp]
    calc w + 2 ^ WORD * Number.value WORD word
        < 2 ^ WORD + 2 ^ WORD * Number.value WORD word := by omega
      _ = 2 ^ WORD * (Number.value WORD word + 1) := by ring
      _ ≤ 2 ^ WORD * 2 ^ (WORD * word.length) := Nat.mul_le_mul_left _ ht

theorem Number.value_inj (WORD : Nat) :
    ∀ (a c : List Nat), Number.Valid WORD a → Number.Valid WORD c → a.length = c.length →
      Number.value WORD a = Number.value WORD c → a = c := by
  intro a
  induction a with
  | nil =>
    intro c _ _ hl _
    exact (List.eq_nil_of_length_eq_zero hl.symm).symm
  | cons x a ih =>
    intro c ha hc hl hv
    cases c with
    | nil => simp at hl
    | cons y c =>
      have hx := ha.head
      have hy := hc.head
      simp only [Number.value] at hv
      have hpos : 0 < 2 ^ WORD := Nat.pow_pos (by decide)
      have h1 : x = y := by
        have e1 : (x + 2 ^ WORD * Number.value WORD a) % 2 ^ WORD = x := by
          rw [Nat.add_mul_mod_self_left, Nat.mod_eq_of_lt hx]
        have e2 : (y + 2 ^ WORD * Number.value WORD c) % 2 ^ WORD = y := by
          rw [Nat.add_mul_mod_self_left, Nat.mod_eq_of_lt hy]
        rw [← e1, ← e2, hv]
      have h2 : Number.value WORD a = Number.value WORD c := by
        subst h1
        have := Nat.add_left_cancel hv
        exact Nat.eq_of_mul_eq_mul_left hpos this
      rw [h1, ih c ha.tail hc.tail (by simpa using hl) h2]

theorem mod_mul_pow (a B X M : Nat) (ha : a < B) :
    (a + B * X) % (B * M) = a + B * (X % M) := by
  have hB : 0 < B := by omega
  rw [Nat.mod_mul, Nat.add_mul_mod_self_left, Nat.mod_eq_of_lt ha,
    Nat.add_mul_div_left _ _ hB, Nat.div_eq_of_lt ha, Nat.zero_add]

/-- `operator*=`: with words of at most 32 bits and a factor of at most `2 ^ 32` no `size_t`
overflows, and the `Number` afterwards holds the product modulo `2 ^ SIZE`. -/
theorem Number.mulAssign_value (WORD rvalue : Nat) (hW : WORD ≤ 32) (hr : rvalue ≤ 2 ^ 32) :
    ∀ (word : List Nat) (remain : Nat), Number.Valid WORD word → remain < rvalue →
      Number.Valid WORD (Number.mulAssign WORD rvalue word remain)
      ∧ Number.value WORD (Number.mulAssign WORD rvalue word remain)
          = (remain + rvalue * Number.value WORD word) % 2 ^ (WORD * word.length) := by
  intro word
  induction word with
  | nil => intro remain _ _; simp [Number.mulAssign, Number.value, Number.Valid, Nat.mod_one]
  | cons w word ih =>
    intro remain hv hrem
    have hw := hv.head
    have hpos : 0 < 2 ^ WORD := Nat.pow_pos (by decide)
    have hWle : 2 ^ WORD ≤ 2 ^ 32 := Nat.pow_le_pow_right (by decide) hW
    have hmul : rvalue * w ≤ rvalue * (2 ^ WORD - 1) := Nat.mul_le_mul_left _ (by omega)
    have hmul2 : rvalue * (2 ^ WORD - 1) + rvalue = rvalue * 2 ^ WORD := by
      rw [Nat.mul_sub, Nat.mul_one]
      have : rvalue ≤ rvalue * 2 ^ WORD := Nat.le_mul_of_pos_right _ hpos
      omega
    have hbig : rvalue * 2 ^ WORD ≤ 2 ^ 32 * 2 ^ 32 := Nat.mul_le_mul hr hWle
    have hlt : remain + rvalue * w < rvalue * 2 ^ WORD := by omega
    have h1 : rvalue * w % SIZE_T = rvalue * w := by
      apply Nat.mod_eq_of_lt
      rw [SIZE_T_eq]
      omega
    have h2 : (remain + rvalue * w) % SIZE_T = remain + rvalue * w := by
      apply Nat.mod_eq_of_lt
      rw [SIZE_T_eq]
      omega
    have hcarry : (remain + rvalue * w) / 2 ^ WORD < rvalue := by
      rw [Nat.div_lt_iff_lt_mul hpos]
      exact hlt
    obtain ⟨ihv, ihe⟩ := ih ((remain + rvalue * w) / 2 ^ WORD) hv.tail hcarry
    simp only [Number.mulAssign, h1, h2, Nat.shiftRight_eq_div_pow]
    refine ⟨Number.valid_cons (Nat.mod_lt _ hpos) ihv, ?_⟩
    have hp : 2 ^ (WORD * (word.length + 1)) = 2 ^ WORD * 2 ^ (WORD * word.length) := by
      rw [Nat.mul_succ, Nat.pow_add, Nat.mul_comm]
    simp only [Number.value, List.length_cons, hp, ihe]
    rw [← mod_mul_pow _ _ _ _ (Nat.mod_lt _ hpos)]
    congr 1
    have := Nat.mod_add_div (remain + rvalue * w) (2 ^ WORD)
    rw [Nat.mul_add, Nat.mul_add]
    have h3 : 2 ^ WORD * (rvalue * Number.value WORD word)
        = rvalue * (2 ^ WORD * Number.value WORD word) := by ring
    omega

theorem Number.length_addAssign (WORD : Nat) (word : List Nat) (remain : Nat) :
    (Number.addAssign WORD word remain).length = word.length := by
  induction word generalizing remain with
  | nil => rfl
  | cons w word ih =>
    rw [Number.addAssign]
    split
    · rfl
    · simp [ih]

/-- `operator+=`: with words of 1 to 32 bits and a summand below `2 ^ 63` no `size_t`
overflows, and the `Number` afterwards holds the sum modulo `2 ^ SIZE`. -/
theorem Number.addAssign_value (WORD : Nat) (hW0 : 1 ≤ WORD) (hW : WORD ≤ 32) :
    ∀ (word : List Nat) (remain : Nat), Number.Valid WORD word → remain < 2 ^ 63 →
      Number.Valid WORD (Number.addAssign WORD word remain)
      ∧ Number.value WORD (Number.addAssign WORD word remain)
          = (Number.value WORD word + remain) % 2 ^ (WORD * word.length) := by
  intro word
  induction word with
  | nil => intro remain _ _; simp [Number.addAssign, Number.value, Number.Valid, Nat.mod_one]
  | cons w word ih =>
    intro remain hv hrem
    rw [Number.addAssign]
    by_cases h0 : remain = 0
    · simp only [h0, if_true, Nat.add_zero]
      exact ⟨hv, (Nat.mod_eq_of_lt (Number.value_lt WORD _ hv)).symm⟩
    · simp only [h0, if_false]
      have hw := hv.head
      have hpos : 0 < 2 ^ WORD := Nat.pow_pos (by decide)
      have hWle : 2 ^ WORD ≤ 2 ^ 32 := Nat.pow_le_pow_right (by decide) hW
      have h2le : 2 ^ 1 ≤ 2 ^ WORD := Nat.pow_le_pow_right (by decide) hW0
      have h2 : (remain + w) % SIZE_T = remain + w := by
        apply Nat.mod_eq_of_lt
        rw [SIZE_T_eq]
        omega
      have hcarry : (remain + w) / 2 ^ WORD < 2 ^ 63 := by
        rw [Nat.div_lt_iff_lt_mul hpos]
        have : 2 ^ 63 * 2 ^ 1 ≤ 2 ^ 63 * 2 ^ WORD := Nat.mul_le_mul_left _ h2le
        omega
      obtain ⟨ihv, ihe⟩ := ih ((remain + w) / 2 ^ WORD) hv.tail hcarry
      simp only [h2, Nat.shiftRight_eq_div_pow]
      refine ⟨Number.valid_cons (Nat.mod_lt _ hpos) ihv, ?_⟩
      have hp : 2 ^ (WORD * (word.length + 1)) = 2 ^ WORD * 2 ^ (WORD * word.length) := by
        rw [Nat.mul_succ, Nat.pow_add, Nat.mul_comm]
      simp only [Number.value, List.length_cons, hp, ihe]
      rw [← mod_mul_pow _ _ _ _ (Nat.mod_lt _ hpos)]
      congr 1
      have := Nat.mod_add_div (remain + w) (2 ^ WORD)
      rw [Nat.mul_add]
      omega

/-- `divide`: with words of at most 32 bits and a divisor from 1 to `2 ^ 32` no `size_t`
overflows and no quotient word is truncated: the `Number` afterwards holds the quotient and the
returned `remain` is the remainder. -/
theorem Number.divide_spec (WORD rvalue : Nat) (hW : WORD ≤ 32) (hr0 : 0 < rvalue)
    (hr : rvalue ≤ 2 ^ 32) :
    ∀ (word : List Nat), Number.Valid WORD word →
      ∃ q r, Number.divide WORD rvalue word = some (q, r)
        ∧ Number.Valid WORD q ∧ q.length = word.length
        ∧ Number.value WORD q = Number.value WORD word / rvalue
        ∧ r = Number.value WORD word % rvalue := by
  intro word
  induction word with
  | nil =>
    intro _
    exact ⟨[], 0, rfl, by simp [Number.Valid], rfl, by simp [Number.value],
      by simp [Number.value]⟩
  | cons w word ih =>
    intro hv
    obtain ⟨q, r, hd, hq, hl, hqv, hrv⟩ := ih hv.tail
    have hw := hv.head
    have hpos : 0 < 2 ^ WORD := Nat.pow_pos (by decide)
    have hWle : 2 ^ WORD ≤ 2 ^ 32 := Nat.pow_le_pow_right (by decide) hW
    have hrlt : r < rvalue := by rw [hrv]; exact Nat.mod_lt _ hr0
    have hmul : r * 2 ^ WORD ≤ (rvalue - 1) * 2 ^ WORD := Nat.mul_le_mul_right _ (by omega)
    have hmul2 : (rvalue - 1) * 2 ^ WORD + 2 ^ WORD = rvalue * 2 ^ WORD := by
      rw [Nat.sub_mul, Nat.one_mul]
      have : 2 ^ WORD ≤ rvalue * 2 ^ WORD := Nat.le_mul_of_pos_left _ hr0
      omega
    have hbig : rvalue * 2 ^ WORD ≤ 2 ^ 32 * 2 ^ 32 := Nat.mul_le_mul hr hWle
    have h1 : (r <<< WORD) % SIZE_T = r * 2 ^ WORD := by
      rw [Nat.shiftLeft_eq]
      apply Nat.mod_eq_of_lt
      rw [SIZE_T_eq]
      omega
    have h2 : (r * 2 ^ WORD + w) % SIZE_T = r * 2 ^ WORD + w := by
      apply Nat.mod_eq_of_lt
      rw [SIZE_T_eq]
      omega
    have hlt : r * 2 ^ WORD + w < rvalue * 2 ^ WORD := by omega
    have hquot : (r * 2 ^ WORD + w) / rvalue < 2 ^ WORD := by
      rw [Nat.div_lt_iff_lt_mul hr0, Nat.mul_comm (2 ^ WORD) rvalue]
      exact hlt
    -- the value of the whole number in terms of this pass
    have hval : Number.value WORD (w :: word)
        = (r * 2 ^ WORD + w) + rvalue * (2 ^ WORD * Number.value WORD q) := by
      have := Nat.div_add_mod (Number.value WORD word) rvalue
      rw [← hqv, ← hrv] at this
      simp only [Number.value]
      calc w + 2 ^ WORD * Number.value WORD word
          = w + 2 ^ WORD * (rvalue * Number.value WORD q + r) := by rw [this]
        _ = (r * 2 ^ WORD + w) + rvalue * (2 ^ WORD * Number.value WORD q) := by ring
    have hdiv : Number.value WORD (w :: word) / rvalue
        = (r * 2 ^ WORD + w) / rvalue + 2 ^ WORD * Number.value WORD q := by
      rw [hval, Nat.add_mul_div_left _ _ hr0]
    have hmod : Number.value WORD (w :: word) % rvalue = (r * 2 ^ WORD + w) % rvalue := by
      rw [hval, Nat.add_mul_mod_self_left]
    simp only [Number.divide, hd, h1, h2]
    by_cases hz : r * 2 ^ WORD + w = 0
    · simp only [hz, if_true]
      refine ⟨_, _, rfl, Number.valid_cons hpos hq, by simp [hl], ?_, ?_⟩
      · rw [hdiv, hz]
        simp [Number.value]
      · rw [hmod, hz]
        simp
    · simp only [hz, if_false, Nat.ne_of_gt hr0]
      refine ⟨_, _, rfl, Number.valid_cons (Nat.mod_lt _ hpos) hq, by simp [hl], ?_, ?_⟩
      · rw [hdiv, Nat.mod_eq_of_lt hquot]
        simp [Number.value]
      · rw [hmod]

theorem Number.not_eq_true (WORD : Nat) (word : List Nat) :
    Number.not word = true ↔ Number.value WORD word = 0 := by
  induction word with
  | nil => simp [Number.not, Number.value]
  | cons w word ih =>
    have hpos : 0 < 2 ^ WORD := Nat.pow_pos (by decide)
    simp only [Number.not, List.all_cons, Bool.and_eq_true, decide_eq_true_eq,
      Number.value, Nat.add_eq_zero_iff, Nat.mul_eq_zero] at ih ⊢
    constructor
    · rintro ⟨h1, h2⟩
      exact ⟨h1, Or.inr (ih.mp h2)⟩
    · rintro ⟨h1, h2 | h2⟩
      · omega
      · exact ⟨h1, ih.mpr h2⟩

/-! ## The bytes of a `Number` -/

theorem toBytes_add_mul (n x y : Nat) : toBytes n (x + 256 ^ n * y) = toBytes n x := by
  induction n generalizing x y with
  | zero => rfl
  | succ n ih =>
    have h1 : (x + 256 ^ (n + 1) * y) % 256 = x % 256 := by
      rw [Nat.pow_succ, Nat.mul_comm (256 ^ n) 256, Nat.mul_assoc, Nat.add_mul_mod_self_left]
    have h2 : (x + 256 ^ (n + 1) * y) / 256 = x / 256 + 256 ^ n * y := by
      rw [Nat.pow_succ, Nat.mul_comm (256 ^ n) 256, Nat.mul_assoc,
        Nat.add_mul_div_left _ _ (by decide : 0 < 256)]
    simp only [toBytes, h1, h2, ih]

theorem toBytes_add (n k x : Nat) :
    toBytes (n + k) x = toBytes n x ++ toBytes k (x / 256 ^ n) := by
  induction n generalizing x with
  | zero => simp [toBytes]
  | succ n ih =>
    have h : n + 1 + k = (n + k) + 1 := by omega
    rw [h]
    simp only [toBytes, ih, List.cons_append, Nat.div_div_eq_div_mul, Nat.pow_succ,
      Nat.mul_comm (256 ^ n) 256]

theorem Number.bytes_eq_toBytes (n : Nat) (word : List Nat)
    (h : Number.Valid (8 * n) word) :
    Number.bytes n word = toBytes (n * word.length) (Number.value (8 * n) word) := by
  induction word with
  | nil => simp [Number.bytes, toBytes]
  | cons w word ih =>
    have hw := h.head
    have hp : 2 ^ (8 * n) = 256 ^ n := by rw [Nat.pow_mul]
    rw [hp] at hw
    have hpos : 0 < 256 ^ n := Nat.pow_pos (by decide)
    have ih2 := ih h.tail
    simp only [Number.bytes] at ih2
    simp only [Number.bytes, List.map_cons, List.flatten_cons, List.length_cons,
      Number.value, Nat.mul_succ, ih2, hp]
    rw [Nat.add_comm (n * word.length) n, toBytes_add, toBytes_add_mul,
      Nat.add_mul_div_left _ _ hpos, Nat.div_eq_of_lt hw, Nat.zero_add]

theorem Number.bytes_append (n : Nat) (a c : List Nat) :
    Number.bytes n (a ++ c) = Number.bytes n a ++ Number.bytes n c := by
  simp [Number.bytes]

theorem Number.swap_eq (n : Nat) (number : List Nat) :
    Number.swap n number = number.reverse.map (crypto.swap n) := by
  apply List.ext_getElem
  · simp [Number.swap]
  · intro i h1 h2
    simp only [Number.swap, List.length_map, List.length_range] at h1
    simp only [Number.swap, List.getElem_map, List.getElem_range, List.getElem_reverse]
    rw [List.getD_eq_getElem _ _ (by omega)]
    congr 2
    omega

theorem Number.bytes_swap (n : Nat) (number : List Nat) :
    Number.bytes n (Number.swap n number) = (Number.bytes n number).reverse := by
  rw [Number.swap_eq]
  induction number with
  | nil => rfl
  | cons w number ih =>
    rw [List.reverse_cons, List.map_append, Number.bytes_append, ih]
    simp [Number.bytes, toBytes_swap, bigEndian]

theorem Number.load_size (n : Nat) (h : n < 2 ^ 64) :
    Number.Valid 32 (Number.load 4 4 (toBytes 8 n))
      ∧ Number.value 32 (Number.load 4 4 (toBytes 8 n)) = n := by
  simp only [Number.load, toBytes, List.take, List.drop, ofBytes, Number.value, Number.Valid,
    List.mem_cons, List.mem_singleton, forall_eq_or_imp, forall_eq, List.not_mem_nil,
    false_implies, implies_true, and_true]
  omega

/-- The length field for `BASE = 512`: the 16 big-endian bytes of the bit count. -/
theorem SHA.length_b512 (n : Nat) (h : n < 2 ^ 64) :
    SHA.length .b512 n = bigEndian 16 (8 * n) := by
  obtain ⟨hv, he⟩ := Number.load_size n h
  obtain ⟨hv2, he2⟩ := Number.mulAssign_value 32 8 (by decide) (by decide)
    (Number.load 4 4 (toBytes 8 n)) 0 hv (by decide)
  have hl : (Number.mulAssign 32 8 (Number.load 4 4 (toBytes 8 n)) 0).length = 4 := by
    rw [length_mulAssign, length_load]
  rw [he, length_load, Nat.zero_add, Nat.mod_eq_of_lt (by omega)] at he2
  rw [SHA.length, Number.bytes_swap, Number.bytes_eq_toBytes 4 _ hv2, hl, he2]
  rfl

/-! ## The claims about the `SHA` engine -/

theorem SHA.length_eq (b : Base) (n : Nat) (h : n < 2 ^ 61) :
    SHA.length b (n % SIZE_T) = bigEndian b.longBytes (8 * n) := by
  cases b
  · exact SHA.length_b256 n h
  · have h1 : n % SIZE_T = n := Nat.mod_eq_of_lt (by rw [SIZE_T_eq]; omega)
    rw [h1]
    exact SHA.length_b512 n (by omega)

theorem padZeros_least (b : Base) (n : Nat) :
    (n + 1 + padZeros b.ATOM b.longBytes n + b.longBytes) % b.ATOM = 0
      ∧ ∀ k, (n + 1 + k + b.longBytes) % b.ATOM = 0 → padZeros b.ATOM b.longBytes n ≤ k := by
  simp only [padZeros]
  rcases b.sizes with ⟨e1, e2, _, _⟩ | ⟨e1, e2, _, _⟩ <;> simp only [e1, e2] <;>
    refine ⟨by omega, fun k hk => by omega⟩

theorem SHA.offs_digest (v : Variant) (s : SHA) : (SHA.digest v s).1.offs = v.base.BASE := by
  rw [SHA.digest]
  split
  · assumption
  · rfl

theorem SHA.value_digest (v : Variant) (s : SHA) :
    (SHA.digest v s).2
      = Number.convert v.base.wordBytes 1 (v.SIZE / 8) (SHA.digest v s).1.hash := by
  rw [SHA.digest]
  split
  · rfl
  · rfl

/-- C1. Streaming equivalence: for every SHA variant and all byte sequences `b1` and `b2`, a
fresh engine fed `update(b1)`, then `update(b2)`, then `digest()` returns the same bytes as a
fresh engine fed the single `update(b1 ++ b2)` and then `digest()`; no condition is put on the
place of the split. -/
theorem sha_streaming_equivalence (v : Variant) (b1 b2 : List Nat) :
    (SHA.digest v (SHA.update v.base (SHA.update v.base (SHA.init v) b1) b2)).2
      = (SHA.digest v (SHA.update v.base (SHA.init v) (b1 ++ b2))).2 := by
  obtain ⟨ha1, hs1⟩ := SHA.insert_absorbed v.base (SEED v) (SHA.init v) b1 []
    (SHA.init_absorbed v)
  obtain ⟨ha2, hs2⟩ := SHA.insert_absorbed v.base (SEED v) _ b2 _ ha1
  obtain ⟨ha3, hs3⟩ := SHA.insert_absorbed v.base (SEED v) (SHA.init v) (b1 ++ b2) []
    (SHA.init_absorbed v)
  rw [List.append_assoc] at ha2
  have hsize : (SHA.insert v.base (SHA.insert v.base (SHA.init v) b1) b2).size
      = (SHA.insert v.base (SHA.init v) (b1 ++ b2)).size := by
    rw [hs2, hs1, hs3, List.length_append, Nat.mod_add_mod, Nat.add_assoc]
  have h2 := SHA.digest_absorbed v _ _ ha2
  have h3 := SHA.digest_absorbed v _ _ ha3
  rw [hsize] at h2
  simp only [SHA.update]
  rw [h2, h3]

/-- C2. Padding and finalization equal the Merkle-Damgard reference: for every message `m` of
fewer than `2 ^ 61` bytes, `digest()` of a fresh engine fed `m` is the first `SIZE / 8` bytes of
the big-endian serialization of the state reached from `SEED` by folding the compression
function over the blocks of `m ++ [0x80] ++ k zero bytes ++ bigEndian_L (8 * n)`, where `k` is
the least number that makes the padded length a multiple of the block length. -/
theorem sha_eq_reference (v : Variant) (m : List Nat) (h : m.length < 2 ^ 61) :
    sha v m = reference v m
      ∧ (m ++ padding v.base m.length).length % v.base.ATOM = 0
      ∧ ∀ k, (m.length + 1 + k + v.base.longBytes) % v.base.ATOM = 0 →
          padZeros v.base.ATOM v.base.longBytes m.length ≤ k := by
  obtain ⟨hk1, hk2⟩ := padZeros_least v.base m.length
  refine ⟨?_, ?_, hk2⟩
  · rw [sha_eq_absorb, SHA.length_eq v.base m.length h, reference, padding]
    simp only [List.append_assoc]
  · simp only [padding, bigEndian, List.length_append, List.length_singleton,
      List.length_replicate, List.length_reverse, length_toBytes]
    rw [← hk1]
    congr 1
    omega

/-- C2, at the message `abc` for SHA-384. -/
theorem sha_eq_reference_witness :
    [0x61, 0x62, 0x63].length < 2 ^ 61
      ∧ sha .sha512_384 [0x61, 0x62, 0x63] = reference .sha512_384 [0x61, 0x62, 0x63] :=
  ⟨by decide, (sha_eq_reference .sha512_384 [0x61, 0x62, 0x63] (by decide)).1⟩

set_option maxRecDepth 100000 in
/-- C3. Known answer: the 32 bytes `sha<256>()` returns for the message `abc`, in index order
and as two lowercase hexadecimal digits each. -/
theorem sha256_abc :
    (sha .sha256_256 [0x61, 0x62, 0x63]).length = 32
      ∧ hex (sha .sha256_256 [0x61, 0x62, 0x63])
        = "ba7816bf8f01cfea414140de5dae2223b00361a396177a9cb410ff61f20015ad" := by
  decide

set_option maxRecDepth 100000 in
/-- C4. Known answer: the 32 bytes a fresh `SHA<256, 256>` engine returns from `digest()`
with no input, and likewise after an `update` of zero bytes. -/
theorem sha256_empty :
    hex (SHA.digest .sha256_256 (SHA.init .sha256_256)).2
        = "e3b0c44298fc1c149afbf4c8996fb92427ae41e4649b934ca495991b7852b855"
      ∧ hex (SHA.digest .sha256_256 (SHA.update .b256 (SHA.init .sha256_256) [])).2
        = "e3b0c44298fc1c149afbf4c8996fb92427ae41e4649b934ca495991b7852b855"
      ∧ (SHA.digest .sha256_256 (SHA.init .sha256_256)).2.length = 32 := by
  decide

set_option maxRecDepth 100000 in
/-- C5. Known answer: the 64 bytes `sha<512>()` returns for the message `abc`. -/
theorem sha512_abc :
    (sha .sha512_512 [0x61, 0x62, 0x63]).length = 64
      ∧ hex (sha .sha512_512 [0x61, 0x62, 0x63])
        = "ddaf35a193617abacc417349ae20413112e6fa4e89a97ea20a9eeee64b55d39a2192992a274fc1a836ba3c23a3feebbd454d4423643ce80e2a9ac94fa54ca49f" := by
  decide

set_option maxRecDepth 100000 in
/-- C6. Known answer: the 28 bytes the `SHA<256, 224>` engine returns for the empty message
render as 56 hexadecimal characters, the first 55 of which are as stated. -/
theorem sha224_empty :
    (sha .sha256_224 []).length = 28
      ∧ (hex (sha .sha256_224 [])).data.length = 56
      ∧ (hex (sha .sha256_224 [])).data.take 55
        = "d14a028c2a3a2bc9476102bb288234c415a2b01f828ea62ac5b3e42".data := by
  decide

/-- C7. Digest idempotence: after any sequence of `update` calls on a fresh engine, a second
`digest()` returns the bytes of the first and leaves the engine (`hash`, `atom`, `offs`, `size`)
as the first call left it. -/
theorem sha_digest_idempotent (v : Variant) (updates : List (List Nat)) :
    (SHA.digest v (SHA.digest v (updates.foldl (SHA.update v.base) (SHA.init v))).1).2
        = (SHA.digest v (updates.foldl (SHA.update v.base) (SHA.init v))).2
      ∧ (SHA.digest v (SHA.digest v (updates.foldl (SHA.update v.base) (SHA.init v))).1).1
        = (SHA.digest v (updates.foldl (SHA.update v.base) (SHA.init v))).1 := by
  generalize updates.foldl (SHA.update v.base) (SHA.init v) = s
  have h1 := SHA.offs_digest v s
  have h2 := SHA.value_digest v s
  generalize SHA.digest v s = r at h1 h2
  rw [SHA.digest, if_pos h1]
  exact ⟨h2.symm, rfl⟩

set_option maxRecDepth 100000 in
/-- C8. Truncation law and SEED independence: for every message, the `SHA<256, 224>` digest
is the first 28 bytes of the serialized final state of the 256-bit compression (with the round
constants of `SHA<256, 256>`) started from the SEED of SHA-224 and run over the padded message;
and for the empty message it differs from the first 28 bytes of the `SHA<256, 256>` digest. -/
theorem sha224_truncation (m : List Nat) :
    sha .sha256_224 m
        = (wire .b256 (absorb .b256 (SEED .sha256_224)
            (m ++ [0x80] ++ List.replicate (padZeros 64 8 m.length) 0
              ++ SHA.length .b256 (m.length % SIZE_T)))).take 28
      ∧ sha .sha256_224 [] ≠ (sha .sha256_256 []).take 28 := by
  refine ⟨sha_eq_absorb .sha256_224 m, ?_⟩
  decide

/-! ## `encode` and `from` -/

theorem find_eq_none {α : Type} [DecidableEq α] (format : List α) (c : α) (h : c ∉ format) :
    find format c = none := by
  induction format with
  | nil => rfl
  | cons x format ih =>
    have h1 : x ≠ c := fun e => h (e ▸ List.mem_cons_self _ _)
    have h2 : c ∉ format := fun e => h (List.mem_cons_of_mem _ e)
    simp [find, h1, ih h2]

theorem find_of_getElem? {α : Type} [DecidableEq α] (format : List α) (hn : format.Nodup) :
    ∀ (r : Nat) (c : α), format[r]? = some c → find format c = some r := by
  induction format with
  | nil => intro r c h; simp at h
  | cons x format ih =>
    intro r c h
    cases r with
    | zero =>
      simp only [List.getElem?_cons_zero, Option.some.injEq] at h
      simp [find, h]
    | succ r =>
      simp only [List.getElem?_cons_succ] at h
      have hmem : c ∈ format := List.getElem?_mem h
      have hx : x ∉ format := (List.nodup_cons.mp hn).1
      have hne : x ≠ c := fun e => hx (e ▸ hmem)
      simp [find, hne, ih (List.nodup_cons.mp hn).2 r c h]

theorem Number.fromLoop_invalid {α : Type} [DecidableEq α] (WORD bins : Nat)
    (format : List α) :
    ∀ (string : List α) (number : List Nat), (∃ c ∈ string, c ∉ format) →
      Number.fromLoop WORD bins format number string = List.replicate bins 0 := by
  intro string
  induction string with
  | nil => intro number h; simp at h
  | cons x string ih =>
    intro number h
    rw [Number.fromLoop]
    cases hf : find format x with
    | none => rfl
    | some offset =>
      simp only
      apply ih
      obtain ⟨c, hc, hcf⟩ := h
      rcases List.mem_cons.mp hc with rfl | hc
      · rw [find_eq_none format c hcf] at hf
        cases hf
      · exact ⟨c, hc, hcf⟩

theorem foldl_digits_mod (d M : Nat) (rs : List Nat) :
    ∀ a : Nat, (rs.foldl (fun acc r => acc * d + r) (a % M)) % M
      = (rs.foldl (fun acc r => acc * d + r) a) % M := by
  induction rs with
  | nil => intro a; simp
  | cons r rs ih =>
    intro a
    simp only [List.foldl_cons]
    rw [← ih (a % M * d + r), ← ih (a * d + r)]
    congr 2
    rw [Nat.add_mod, Nat.mul_mod, Nat.mod_mod, ← Nat.mul_mod, ← Nat.add_mod]

/-- The loop of `from` on characters that all occur in `format`: positional evaluation of
their indices, modulo `2 ^ SIZE`. -/
theorem Number.fromLoop_value {α : Type} [DecidableEq α] (WORD bins : Nat) (format : List α)
    (hW0 : 1 ≤ WORD) (hW : WORD ≤ 32) (hd0 : 0 < format.length)
    (hd : format.length ≤ 2 ^ 32) :
    ∀ (string : List α) (rs : List Nat) (number : List Nat),
      List.Forall₂ (fun c r => find format c = some r ∧ r < format.length) string rs →
      Number.Valid WORD number → number.length = bins →
      Number.Valid WORD (Number.fromLoop WORD bins format number string)
      ∧ (Number.fromLoop WORD bins format number string).length = bins
      ∧ Number.value WORD (Number.fromLoop WORD bins format number string)
        = (rs.foldl (fun acc r => acc * format.length + r) (Number.value WORD number))
            % 2 ^ (WORD * bins) := by
  intro string
  induction string with
  | nil =>
    intro rs number h hv hl
    cases h
    refine ⟨hv, hl, ?_⟩
    simp only [Number.fromLoop, List.foldl_nil]
    rw [Nat.mod_eq_of_lt]
    rw [← hl]
    exact Number.value_lt WORD number hv
  | cons c string ih =>
    intro rs number h hv hl
    cases h with
    | cons hc hrest =>
      rename_i r rs
      obtain ⟨hfind, hr⟩ := hc
      obtain ⟨hv1, he1⟩ := Number.mulAssign_value WORD format.length hW hd number 0 hv hd0
      have hl1 := length_mulAssign WORD format.length number 0
      have hr63 : r < 2 ^ 63 := by omega
      obtain ⟨hv2, he2⟩ := Number.addAssign_value WORD hW0 hW _ r hv1 hr63
      have hl2 := Number.length_addAssign WORD
        (Number.mulAssign WORD format.length number 0) r
      rw [hl1, hl] at hl2
      rw [hl1, he1, Nat.zero_add, hl, Nat.mod_add_mod] at he2
      obtain ⟨hv3, hl3, he3⟩ := ih rs _ hrest hv2 hl2
      rw [Number.fromLoop]
      simp only [hfind, List.foldl_cons]
      refine ⟨hv3, hl3, ?_⟩
      rw [he3, he2, foldl_digits_mod, Nat.mul_comm]

theorem foldr_digits (d n : Nat) :
    (Nat.digits d n).foldr (fun r acc => acc * d + r) 0 = n := by
  have h := Nat.ofDigits_digits d n
  rw [Nat.ofDigits_eq_foldr] at h
  simp only [Nat.cast_id] at h
  have e : (fun (r acc : Nat) => acc * d + r) = (fun (x y : Nat) => x + d * y) := by
    funext r acc
    rw [Nat.mul_comm, Nat.add_comm]
  rw [e]
  exact h

/-- The loop of `encode` ends within one pass more than the value has bits, and pushes the
characters of the base-`digits` digits of the value, least significant first. -/
theorem Number.encodeLoop_digits {α : Type} (WORD : Nat) (format : List α)
    (hW : WORD ≤ 32) (hd0 : 2 ≤ format.length) (hd : format.length ≤ 2 ^ 32) :
    ∀ (fuel : Nat) (number : List Nat) (string : List α), Number.Valid WORD number →
      Number.value WORD number < 2 ^ fuel →
      ∃ cs, Number.encodeLoop WORD format (fuel + 1) number string = some (string ++ cs)
        ∧ List.Forall₂ (fun c r => format[r]? = some c) cs
            (Nat.digits format.length (Number.value WORD number)) := by
  intro fuel
  induction fuel with
  | zero =>
    intro number string _ hlt
    have h0 : Number.value WORD number = 0 := by omega
    have hnot := (Number.not_eq_true WORD number).mpr h0
    refine ⟨[], ?_, ?_⟩
    · simp [Number.encodeLoop, hnot]
    · rw [h0, Nat.digits_zero]
      exact List.Forall₂.nil
  | succ fuel ih =>
    intro number string hv hlt
    by_cases h0 : Number.value WORD number = 0
    · have hnot := (Number.not_eq_true WORD number).mpr h0
      refine ⟨[], ?_, ?_⟩
      · simp [Number.encodeLoop, hnot]
      · rw [h0, Nat.digits_zero]
        exact List.Forall₂.nil
    · have hnot : Number.not number = false := by
        cases hb : Number.not number with
        | false => rfl
        | true => exact absurd ((Number.not_eq_true WORD number).mp hb) h0
      obtain ⟨q, r, hdiv, hq, _, hqv, hrv⟩ :=
        Number.divide_spec WORD format.length hW (by omega) hd number hv
      have hrlt : r < format.length := by rw [hrv]; exact Nat.mod_lt _ (by omega)
      have hqlt : Number.value WORD q < 2 ^ fuel := by
        rw [hqv, Nat.div_lt_iff_lt_mul (by omega)]
        calc Number.value WORD number < 2 ^ (fuel + 1) := hlt
          _ = 2 ^ fuel * 2 := Nat.pow_succ 2 fuel
          _ ≤ 2 ^ fuel * format.length := Nat.mul_le_mul_left _ hd0
      obtain ⟨cs, hcs, hall⟩ := ih q (string ++ [format[r]]) hq hqlt
      refine ⟨format[r] :: cs, ?_, ?_⟩
      · rw [Number.encodeLoop]
        simp only [hnot, hdiv, List.getElem?_eq_getElem hrlt, hcs, List.append_assoc,
          List.singleton_append]
        simp
      · rw [Nat.digits_def' (by omega) (Nat.pos_of_ne_zero h0), ← hrv, ← hqv]
        exact List.Forall₂.cons (List.getElem?_eq_getElem hrlt) hall

theorem Number.value_zero (WORD bins : Nat) :
    Number.value WORD (List.replicate bins 0) = 0 := by
  induction bins with
  | zero => rfl
  | succ bins ih => simp [List.replicate_succ, Number.value, ih]

theorem Number.valid_zero (WORD bins : Nat) : Number.Valid WORD (List.replicate bins 0) := by
  intro w hw
  rw [(List.mem_replicate.mp hw).2]
  exact Nat.pow_pos (by decide)

/-- Decoding the characters of a base-`digits` numeral of a value below `2 ^ SIZE`, most
significant digit first, gives the `Number` with that value. -/
theorem Number.from_digits {α : Type} [DecidableEq α] (WORD : Nat) (v : List Nat)
    (format : List α) (hW0 : 1 ≤ WORD) (hW : WORD ≤ 32) (hd0 : 0 < format.length)
    (hd : format.length ≤ 2 ^ 32) (hv : Number.Valid WORD v) (hn : format.Nodup)
    (cs : List α) (ds : List Nat)
    (hcs : List.Forall₂ (fun c r => format[r]? = some c) cs ds)
    (hds : ds.foldr (fun r acc => acc * format.length + r) 0 = Number.value WORD v) :
    Number.from WORD v.length cs.reverse format = v := by
  have hrev : List.Forall₂ (fun c r => find format c = some r ∧ r < format.length)
      cs.reverse ds.reverse := by
    rw [List.forall₂_reverse_iff]
    refine hcs.imp ?_
    intro c r h
    refine ⟨find_of_getElem? format hn r c h, ?_⟩
    obtain ⟨hlt, _⟩ := List.getElem?_eq_some.mp h
    exact hlt
  obtain ⟨h1, h2, h3⟩ := Number.fromLoop_value WORD v.length format hW0 hW hd0 hd
    cs.reverse ds.reverse (List.replicate v.length 0) hrev
    (Number.valid_zero WORD v.length) (by simp)
  rw [Number.value_zero, List.foldl_reverse, hds,
    Nat.mod_eq_of_lt (Number.value_lt WORD v hv)] at h3
  exact Number.value_inj WORD _ v h1 hv h2 h3

/-- C9. Radix round trip: for every value `v` with words of 8, 16 or 32 bits and every
alphabet without duplicate characters whose length is one of 2, 10, 16, 36, 58, `encode`
returns a string and `Number::from` of that string is `v`. -/
theorem radix_round_trip {α : Type} [DecidableEq α] (WORD : Nat) (v : List Nat)
    (format : List α) (hW : WORD = 8 ∨ WORD = 16 ∨ WORD = 32) (hv : Number.Valid WORD v)
    (hn : format.Nodup) (hlen : format.length ∈ [2, 10, 16, 36, 58]) :
    ∃ string, Number.encode WORD v format = some string
      ∧ Number.from WORD v.length string format = v := by
  have hW0 : 1 ≤ WORD := by omega
  have hW32 : WORD ≤ 32 := by omega
  have hd2 : 2 ≤ format.length := by
    simp only [List.mem_cons, List.mem_singleton, List.not_mem_nil, or_false] at hlen
    omega
  have hd : format.length ≤ 2 ^ 32 := by
    simp only [List.mem_cons, List.mem_singleton, List.not_mem_nil, or_false] at hlen
    omega
  obtain ⟨cs, hloop, hcs⟩ := Number.encodeLoop_digits WORD format hW32 hd2 hd
    (WORD * v.length) v [] hv (Number.value_lt WORD v hv)
  rw [List.nil_append] at hloop
  by_cases hempty : cs.length = 0
  · have hcs0 : cs = [] := List.eq_nil_of_length_eq_zero hempty
    subst hcs0
    have hds : Nat.digits format.length (Number.value WORD v) = [] :=
      List.forall₂_nil_left_iff.mp hcs
    have hval : Number.value WORD v = 0 := Nat.digits_eq_nil_iff_eq_zero.mp hds
    have h0 : format[0]? = some format[0] := List.getElem?_eq_getElem (by omega)
    refine ⟨[format[0]], ?_, ?_⟩
    · simp [Number.encode, hloop, h0]
    · have := Number.from_digits WORD v format hW0 hW32 (by omega) hd hv hn [format[0]] [0]
        (List.Forall₂.cons h0 List.Forall₂.nil) (by simp [hval])
      simpa using this
  · refine ⟨cs.reverse, ?_, ?_⟩
    · simp [Number.encode, hloop, hempty]
    · exact Number.from_digits WORD v format hW0 hW32 (by omega) hd hv hn cs _ hcs
        (foldr_digits _ _)

/-- C9, at the 16-bit value `0x1234` in two 8-bit words and the hexadecimal alphabet. -/
theorem radix_round_trip_witness :
    Number.Valid 8 [0x34, 0x12] ∧ "0123456789abcdef".toList.Nodup
      ∧ "0123456789abcdef".toList.length ∈ [2, 10, 16, 36, 58]
      ∧ ∃ string, Number.encode 8 [0x34, 0x12] "0123456789abcdef".toList = some string
          ∧ Number.from 8 [0x34, 0x12].length string "0123456789abcdef".toList
            = [0x34, 0x12] :=
  ⟨by simp [Number.Valid], by decide, by decide,
    radix_round_trip 8 [0x34, 0x12] "0123456789abcdef".toList (by decide)
      (by simp [Number.Valid]) (by decide) (by decide)⟩

/-- C10. Invalid decode input yields zero: if at least one character of the string does not
occur in the alphabet, `Number::from` returns the all-zero value, whatever precedes or follows
that character; this is also what it returns for the empty string, which has no invalid
character and denotes zero. -/
theorem from_invalid_is_zero {α : Type} [DecidableEq α] (WORD bins : Nat)
    (string format : List α) (h : ∃ c ∈ string, c ∉ format) :
    Number.from WORD bins string format = List.replicate bins 0
      ∧ Number.from WORD bins string format = Number.from WORD bins [] format := by
  have h1 := Number.fromLoop_invalid WORD bins format string (List.replicate bins 0) h
  exact ⟨h1, h1⟩

/-- C10, at the string `12g4` and the hexadecimal alphabet. -/
theorem from_invalid_is_zero_witness :
    (∃ c ∈ "12g4".toList, c ∉ "0123456789abcdef".toList)
      ∧ Number.from 8 2 "12g4".toList "0123456789abcdef".toList = List.replicate 2 0
      ∧ Number.from 8 2 "12g4".toList "0123456789abcdef".toList
        = Number.from 8 2 [] "0123456789abcdef".toList :=
  ⟨by decide, from_invalid_is_zero 8 2 "12g4".toList "0123456789abcdef".toList (by decide)⟩

/-! ## `from` and `encode` as positional numerals -/

theorem find_eq_indexOf {α : Type} [DecidableEq α] (format : List α) (c : α)
    (h : c ∈ format) : find format c = some (format.indexOf c) := by
  induction format with
  | nil => simp at h
  | cons x format ih =>
    by_cases hx : x = c
    · simp [find, hx]
    · have hc : c ∈ format := by
        rcases List.mem_cons.mp h with e | e
        · exact absurd e.symm hx
        · exact e
      simp [find, hx, ih hc, List.indexOf_cons_ne _ hx]

theorem indexOf_of_getElem? {α : Type} [DecidableEq α] (format : List α) (hn : format.Nodup)
    (r : Nat) (c : α) (h : format[r]? = some c) : format.indexOf c = r := by
  have h1 := find_of_getElem? format hn r c h
  rw [find_eq_indexOf format c (List.getElem?_mem h)] at h1
  exact Option.some.inj h1

theorem foldl_positional (b : Nat) (rs : List Nat) :
    ∀ a : Nat, rs.foldl (fun acc r => acc * b + r) a = a * b ^ rs.length + positional b rs := by
  induction rs with
  | nil => intro a; simp [positional]
  | cons r rs ih =>
    intro a
    simp only [List.foldl_cons, ih, positional, List.length_cons, Nat.pow_succ]
    ring

theorem positional_reverse_digits (b n : Nat) :
    positional b (Nat.digits b n).reverse = n := by
  have h := foldl_positional b (Nat.digits b n).reverse 0
  rw [Nat.zero_mul, Nat.zero_add, List.foldl_reverse] at h
  rw [← h]
  exact foldr_digits b n

/-- `encode` returns a string for every alphabet of 2 to `2 ^ 32` characters: the characters at
the indices `ds`, where `ds` is the single digit 0 for the value zero and the base-`b` digits of
the value, most significant first, otherwise. -/
theorem Number.encode_digits {α : Type} (WORD : Nat) (v : List Nat) (format : List α)
    (hW : WORD ≤ 32) (hv : Number.Valid WORD v) (hb2 : 2 ≤ format.length)
    (hb : format.length ≤ 2 ^ 32) :
    ∃ string, Number.encode WORD v format = some string
      ∧ List.Forall₂ (fun c r => format[r]? = some c) string
          (if Number.value WORD v = 0 then [0]
           else (Nat.digits format.length (Number.value WORD v)).reverse) := by
  obtain ⟨cs, hloop, hcs⟩ := Number.encodeLoop_digits WORD format hW hb2 hb
    (WORD * v.length) v [] hv (Number.value_lt WORD v hv)
  rw [List.nil_append] at hloop
  by_cases hempty : cs.length = 0
  · have hcs0 : cs = [] := List.eq_nil_of_length_eq_zero hempty
    subst hcs0
    have hds : Nat.digits format.length (Number.value WORD v) = [] :=
      List.forall₂_nil_left_iff.mp hcs
    have hval : Number.value WORD v = 0 := Nat.digits_eq_nil_iff_eq_zero.mp hds
    have h0 : format[0]? = some format[0] := List.getElem?_eq_getElem (by omega)
    refine ⟨[format[0]], ?_, ?_⟩
    · simp [Number.encode, hloop, h0]
    · rw [if_pos hval]
      exact List.Forall₂.cons h0 List.Forall₂.nil
  · have hval : Number.value WORD v ≠ 0 := by
      intro h0
      rw [h0, Nat.digits_zero] at hcs
      cases hcs
      exact hempty rfl
    refine ⟨cs.reverse, ?_, ?_⟩
    · simp [Number.encode, hloop, hempty]
    · rw [if_neg hval, List.forall₂_reverse_iff]
      exact hcs

/-- C11. Decode is positional evaluation modulo `2 ^ SIZE`: for words of 8, 16 or 32 bits, an
alphabet of `b` characters with `2 <= b <= 2 ^ 32` and a string whose characters all occur in
the alphabet, the value of `Number::from(s, alphabet)` is the sum of `index(c_j) * b ^ (k - j)`
modulo `2 ^ SIZE`; the empty string decodes to zero. -/
theorem from_positional {α : Type} [DecidableEq α] (WORD bins : Nat) (string format : List α)
    (hW : WORD = 8 ∨ WORD = 16 ∨ WORD = 32) (hb2 : 2 ≤ format.length)
    (hb : format.length ≤ 2 ^ 32) (hs : ∀ c ∈ string, c ∈ format) :
    Number.value WORD (Number.from WORD bins string format)
        = positional format.length (string.map (fun c => format.indexOf c))
            % 2 ^ (WORD * bins)
      ∧ Number.from WORD bins [] format = List.replicate bins 0 := by
  refine ⟨?_, rfl⟩
  have hrel : List.Forall₂ (fun c r => find format c = some r ∧ r < format.length) string
      (string.map (fun c => format.indexOf c)) := by
    rw [List.forall₂_map_right_iff, List.forall₂_same]
    intro c hc
    exact ⟨find_eq_indexOf format c (hs c hc), List.indexOf_lt_length.mpr (hs c hc)⟩
  obtain ⟨_, _, h3⟩ := Number.fromLoop_value WORD bins format (by omega) (by omega)
    (by omega) hb string _ (List.replicate bins 0) hrel (Number.valid_zero WORD bins)
    (by simp)
  rw [Number.value_zero, foldl_positional, Nat.zero_mul, Nat.zero_add] at h3
  exact h3

/-- C11, at the string `100` and the hexadecimal alphabet, decoded into one 8-bit word: the
value 256 wraps to zero. -/
theorem from_positional_witness :
    (∀ c ∈ "100".toList, c ∈ "0123456789abcdef".toList)
      ∧ Number.value 8 (Number.from 8 1 "100".toList "0123456789abcdef".toList)
        = positional "0123456789abcdef".toList.length
            ("100".toList.map (fun c => "0123456789abcdef".toList.indexOf c)) % 2 ^ (8 * 1)
      ∧ positional "0123456789abcdef".toList.length
            ("100".toList.map (fun c => "0123456789abcdef".toList.indexOf c)) = 256 :=
  ⟨by decide,
    (from_positional 8 1 "100".toList "0123456789abcdef".toList (by decide) (by decide)
      (by decide) (by decide)).1,
    by decide⟩

theorem map_indexOf_of_forall₂ {α : Type} [DecidableEq α] (format : List α)
    (hn : format.Nodup) :
    ∀ (string : List α) (ds : List Nat),
      List.Forall₂ (fun c r => format[r]? = some c) string ds →
      string.map (fun c => format.indexOf c) = ds := by
  intro string ds h
  induction h with
  | nil => rfl
  | cons hc _ ih =>
    simp only [List.map_cons, ih, indexOf_of_getElem? format hn _ _ hc]

theorem head_reverse_digits_ne_zero (b n : Nat) (hn : n ≠ 0) :
    (Nat.digits b n).reverse.head? ≠ some 0 := by
  have h := Nat.getLast_digit_ne_zero b hn
  rw [List.head?_reverse, List.getLast?_eq_getLast _ (Nat.digits_ne_nil_iff_ne_zero.mpr hn)]
  intro e
  exact h (Option.some.inj e)

/-- C12 as stated, without a condition on the alphabet, fails: with the alphabet `aa` the value
1 encodes to the string `a`, whose first character is `alphabet[0]` although the value is not
zero. -/
theorem encode_duplicate_alphabet :
    ¬ (∀ string, Number.encode 8 [1] "aa".toList = some string →
        string.head? = "aa".toList.head? → Number.value 8 [1] = 0) := by
  intro h
  have h1 := h "a".toList (by decide) (by decide)
  revert h1
  decide

/-- C12, amended. Encode produces the canonical base-`b` numeral: for words of 8, 16 or 32
bits and an alphabet without duplicate characters of `b` characters, `2 <= b <= 2 ^ 32`,
`encode` returns a non-empty string of alphabet characters whose positional value in base `b`,
most significant digit first, is the value of `v`; its first character is `alphabet[0]` only
when `v` is zero, and then the string is the one character `alphabet[0]`. -/
theorem encode_canonical {α : Type} [DecidableEq α] (WORD : Nat) (v : List Nat)
    (format : List α) (hW : WORD = 8 ∨ WORD = 16 ∨ WORD = 32) (hv : Number.Valid WORD v)
    (hn : format.Nodup) (hb2 : 2 ≤ format.length) (hb : format.length ≤ 2 ^ 32) :
    ∃ string, Number.encode WORD v format = some string
      ∧ string ≠ []
      ∧ (∀ c ∈ string, c ∈ format)
      ∧ positional format.length (string.map (fun c => format.indexOf c))
          = Number.value WORD v
      ∧ (string.head? = format.head? → Number.value WORD v = 0)
      ∧ (Number.value WORD v = 0 → string = format.take 1) := by
  obtain ⟨string, henc, hrel⟩ := Number.encode_digits WORD v format (by omega) hv hb2 hb
  have hidx := map_indexOf_of_forall₂ format hn string _ hrel
  have hhead : format.head? = format[0]? := by
    cases format <;> simp
  have h0 : format[0]? = some format[0] := List.getElem?_eq_getElem (by omega)
  refine ⟨string, henc, ?_, ?_, ?_, ?_, ?_⟩
  · intro e
    rw [e] at hrel
    have := List.forall₂_nil_left_iff.mp hrel
    split at this
    · cases this
    · rename_i hval
      exact (Nat.digits_ne_nil_iff_ne_zero.mpr hval) (List.reverse_eq_nil_iff.mp this)
  · intro c hc
    have hmem : ∀ (cs : List α) (ds : List Nat),
        List.Forall₂ (fun c r => format[r]? = some c) cs ds → ∀ x ∈ cs, x ∈ format := by
      intro cs ds hf
      induction hf with
      | nil => intro x hx; simp at hx
      | cons hc1 _ ih =>
        intro x hx
        rcases List.mem_cons.mp hx with rfl | hx
        · exact List.getElem?_mem hc1
        · exact ih x hx
    exact hmem string _ hrel c hc
  · rw [hidx]
    split
    · rename_i hval
      simp [positional, hval]
    · exact positional_reverse_digits _ _
  · intro hfirst
    by_contra hval
    rw [if_neg hval] at hidx
    have hne := head_reverse_digits_ne_zero format.length _ hval
    rw [← hidx, List.head?_map, hfirst, hhead, h0] at hne
    simp only [Option.map_some'] at hne
    apply hne
    rw [indexOf_of_getElem? format hn 0 _ h0]
  · intro hval
    rw [if_pos hval] at hrel
    cases hrel with
    | cons hc hrest =>
      cases hrest
      rw [h0] at hc
      cases format with
      | nil => simp at hb2
      | cons x format =>
        simp only [List.getElem_cons_zero, Option.some.injEq] at hc
        simp [hc]

/-- C12 amended, at the 16-bit value `0x1234` in two 8-bit words and the hexadecimal
alphabet. -/
theorem encode_canonical_witness :
    Number.Valid 8 [0x34, 0x12] ∧ "0123456789abcdef".toList.Nodup
      ∧ ∃ string, Number.encode 8 [0x34, 0x12] "0123456789abcdef".toList = some string
        ∧ string ≠ []
        ∧ (∀ c ∈ string, c ∈ "0123456789abcdef".toList)
        ∧ positional "0123456789abcdef".toList.length
            (string.map (fun c => "0123456789abcdef".toList.indexOf c))
            = Number.value 8 [0x34, 0x12]
        ∧ (string.head? = "0123456789abcdef".toList.head? → Number.value 8 [0x34, 0x12] = 0)
        ∧ (Number.value 8 [0x34, 0x12] = 0 → string = "0123456789abcdef".toList.take 1) :=
  ⟨by simp [Number.Valid], by decide,
    encode_canonical 8 [0x34, 0x12] "0123456789abcdef".toList (by decide)
      (by simp [Number.Valid]) (by decide) (by decide) (by decide)⟩

/-- C13. Encode length bound: for a value of at least one word of 1 to 32 bits and an alphabet
of `b` characters, `2 <= b <= 2 ^ 32`, the length `len` of the string `encode` returns
satisfies `b ^ (len - 1) < 2 ^ SIZE`. -/
theorem encode_length_bound {α : Type} (WORD : Nat) (v : List Nat) (format : List α)
    (hW0 : 0 < WORD) (hW : WORD ≤ 32) (hv : Number.Valid WORD v) (hne : v ≠ [])
    (hb2 : 2 ≤ format.length) (hb : format.length ≤ 2 ^ 32) :
    ∃ string, Number.encode WORD v format = some string
      ∧ format.length ^ (string.length - 1) < 2 ^ (WORD * v.length) := by
  obtain ⟨string, henc, hrel⟩ := Number.encode_digits WORD v format hW hv hb2 hb
  refine ⟨string, henc, ?_⟩
  have hlen := hrel.length_eq
  have hlt := Number.value_lt WORD v hv
  by_cases hval : Number.value WORD v = 0
  · rw [if_pos hval] at hlen
    rw [hlen]
    have hpos : 0 < v.length := List.length_pos.mpr hne
    have : 0 < WORD * v.length := Nat.mul_pos hW0 hpos
    simpa using Nat.one_lt_two_pow (Nat.ne_of_gt this)
  · rw [if_neg hval, List.length_reverse] at hlen
    have hle := Nat.base_pow_length_digits_le format.length _ (by omega) hval
    have hpos : 0 < (Nat.digits format.length (Number.value WORD v)).length :=
      List.length_pos.mpr (Nat.digits_ne_nil_iff_ne_zero.mpr hval)
    rw [hlen]
    have hsplit : format.length ^ (Nat.digits format.length (Number.value WORD v)).length
        = format.length
          * format.length ^ ((Nat.digits format.length (Number.value WORD v)).length - 1) := by
      rw [← Nat.pow_succ', Nat.succ_eq_add_one, Nat.sub_add_cancel hpos]
    rw [hsplit] at hle
    exact Nat.lt_of_le_of_lt (Nat.le_of_mul_le_mul_left hle (by omega)) hlt

/-- C13, at the 16-bit value `0xffff` in two 8-bit words and the decimal alphabet. -/
theorem encode_length_bound_witness :
    Number.Valid 8 [0xff, 0xff] ∧ [0xff, 0xff] ≠ []
      ∧ ∃ string, Number.encode 8 [0xff, 0xff] "0123456789".toList = some string
        ∧ "0123456789".toList.length ^ (string.length - 1) < 2 ^ (8 * [0xff, 0xff].length) :=
  ⟨by simp [Number.Valid], by decide,
    encode_length_bound 8 [0xff, 0xff] "0123456789".toList (by decide) (by decide)
      (by simp [Number.Valid]) (by decide) (by decide) (by decide)⟩

/-! ## The scalar arithmetic of `Number` beyond the range of its `size_t` accumulator -/

set_option maxRecDepth 10000 in
/-- C14. The code at `uint128_t v = 1` (four 32-bit words) and `n = 2 ^ 64 - 1`: in the first
pass `remain += word[0]` overflows the `size_t` to zero, the loop ends, and `v += n` leaves
`v = 0` where `(1 + n) mod 2 ^ 128` is `2 ^ 64`. -/
theorem addAssign_carry_lost :
    Number.addAssign 32 [1, 0, 0, 0] (2 ^ 64 - 1) = [0, 0, 0, 0]
      ∧ Number.value 32 (Number.addAssign 32 [1, 0, 0, 0] (2 ^ 64 - 1))
        ≠ (Number.value 32 [1, 0, 0, 0] + (2 ^ 64 - 1)) % 2 ^ (32 * 4) := by
  decide

set_option maxRecDepth 10000 in
/-- C15. The code at `uint128_t v = 2 ^ 31` (four 32-bit words) and `n = 2 ^ 33`: the product
`rvalue * word[0]` overflows the `size_t` to zero, and `v *= n` leaves `v = 0` where
`(v * n) mod 2 ^ 128` is `2 ^ 64`. -/
theorem mulAssign_product_overflows :
    Number.mulAssign 32 (2 ^ 33) [2 ^ 31, 0, 0, 0] 0 = [0, 0, 0, 0]
      ∧ Number.value 32 (Number.mulAssign 32 (2 ^ 33) [2 ^ 31, 0, 0, 0] 0)
        ≠ (Number.value 32 [2 ^ 31, 0, 0, 0] * 2 ^ 33) % 2 ^ (32 * 4) := by
  decide

set_option maxRecDepth 10000 in
/-- C16. The code at `uint128_t v = 2 ^ 64` (four 32-bit words) and `n = 2 ^ 33`: in the last
pass `remain <<= WORD` shifts the remainder `2 ^ 32` out of the `size_t`, and `v.divide(n)`
returns 0 and leaves `v = 0`, so that `q * n + r = 0` where the old `v` is `2 ^ 64`. -/
theorem divide_remainder_overflows :
    Number.divide 32 (2 ^ 33) [0, 0, 1, 0] = some ([0, 0, 0, 0], 0)
      ∧ Number.value 32 [0, 0, 1, 0] = 2 ^ 64
      ∧ Number.value 32 [0, 0, 0, 0] * 2 ^ 33 + 0 ≠ Number.value 32 [0, 0, 1, 0] := by
  decide

/-! ## `swap` -/

theorem ofBytes_toBytes (n x : Nat) : ofBytes (toBytes n x) = x % 256 ^ n := by
  induction n generalizing x with
  | zero => simp [toBytes, ofBytes, Nat.mod_one]
  | succ n ih =>
    simp only [toBytes, ofBytes, ih]
    rw [Nat.pow_succ, Nat.mul_comm (256 ^ n) 256, Nat.mod_mul]

theorem swap_word_twice (n x : Nat) (h : x < 256 ^ n) : swap n (swap n x) = x := by
  have h1 : toBytes n (swap n x) = (toBytes n x).reverse := toBytes_swap n x
  rw [swap, h1, List.reverse_reverse, ofBytes_toBytes, Nat.mod_eq_of_lt h]

theorem Number.swap_twice (n : Nat) (x : List Nat) (hx : Number.Valid (8 * n) x) :
    Number.swap n (Number.swap n x) = x := by
  rw [Number.swap_eq, Number.swap_eq, ← List.map_reverse, List.reverse_reverse, List.map_map]
  conv_rhs => rw [← List.map_id x]
  apply List.map_congr_left
  intro w hw
  have h := hx w hw
  rw [Nat.pow_mul] at h
  exact swap_word_twice n w h

/-- C17. Byte-order swap is full byte reversal: for every `Number` whose words of `n` bytes
fit their word type, the byte at index `j` of `swap(x)` is the byte at index `SIZE / 8 - 1 - j`
of `x`, and `swap(swap(x))` is `x`. -/
theorem swap_reverses_bytes (n : Nat) (x : List Nat) (hx : Number.Valid (8 * n) x) :
    (∀ j, j < n * x.length →
        (Number.bytes n (Number.swap n x))[j]? = (Number.bytes n x)[n * x.length - 1 - j]?)
      ∧ Number.swap n (Number.swap n x) = x := by
  refine ⟨?_, Number.swap_twice n x hx⟩
  intro j hj
  rw [Number.bytes_swap, List.getElem?_reverse (by rw [length_bytes]; exact hj), length_bytes]

/-- C17, at a `Number<64, uint32_t>`. -/
theorem swap_reverses_bytes_witness :
    Number.Valid (8 * 4) [0x01020304, 0x05060708]
      ∧ (∀ j, j < 4 * [0x01020304, 0x05060708].length →
          (Number.bytes 4 (Number.swap 4 [0x01020304, 0x05060708]))[j]?
            = (Number.bytes 4 [0x01020304, 0x05060708])[
                4 * [0x01020304, 0x05060708].length - 1 - j]?)
      ∧ Number.swap 4 (Number.swap 4 [0x01020304, 0x05060708]) = [0x01020304, 0x05060708] :=
  ⟨by simp [Number.Valid], swap_reverses_bytes 4 [0x01020304, 0x05060708]
    (by simp [Number.Valid])⟩

/-! ## Sequences of `update` calls and the calls of `encode()` -/

theorem SHA.updates_absorbed (b : Base) (seed : List Nat) :
    ∀ (updates : List (List Nat)) (s : SHA) (data : List Nat), SHA.Absorbed b seed data s →
      s.size < SIZE_T →
      SHA.Absorbed b seed (data ++ updates.flatten) (updates.foldl (SHA.update b) s)
      ∧ (updates.foldl (SHA.update b) s).size = (s.size + updates.flatten.length) % SIZE_T := by
  intro updates
  induction updates with
  | nil =>
    intro s data hs hsize
    simp only [List.flatten_nil, List.append_nil, List.foldl_nil, List.length_nil,
      Nat.add_zero]
    exact ⟨hs, (Nat.mod_eq_of_lt hsize).symm⟩
  | cons record updates ih =>
    intro s data hs _
    obtain ⟨h1, h2⟩ := SHA.insert_absorbed b seed s record data hs
    have hlt : (SHA.insert b s record).size < SIZE_T := by
      rw [h2]
      exact Nat.mod_lt _ (by decide)
    obtain ⟨h3, h4⟩ := ih (SHA.insert b s record) _ h1 hlt
    simp only [List.foldl_cons, List.flatten_cons, SHA.update, List.length_append]
    rw [← List.append_assoc]
    refine ⟨h3, ?_⟩
    rw [h4, h2, Nat.mod_add_mod, Nat.add_assoc]

theorem SHA.size_init_lt (v : Variant) : (SHA.init v).size < SIZE_T := by
  show 0 < SIZE_T
  decide

/-- A pass of the loop of `insert` that fills the block and calls `encode()` keeps the engine
in step with the data taken in. -/
theorem SHA.encode_absorbed (b : Base) (seed data record : List Nat) (s : SHA)
    (hs : SHA.Absorbed b seed data s) (hc : s.capacity b ≤ record.length) :
    SHA.Absorbed b seed (data ++ record.take (s.capacity b))
      (SHA.encode b { s with atom := memcpy s.atom s.offs (record.take (s.capacity b)) }) := by
  have hcap := hs.capacity
  have hlt := hs.offs_lt
  have hpen := hs.length_pending
  obtain ⟨hb1, hb2⟩ := absorb_append b seed (record.take (s.capacity b))
    data.length data (Nat.le_refl _)
  have hlen : (rest b.ATOM data ++ record.take (s.capacity b)).length = b.ATOM := by
    simp only [List.length_append, List.length_take, hpen]
    omega
  obtain ⟨hc1, hc2⟩ := absorb_block b (absorb b seed data) _ hlen
  have hfull : memcpy s.atom s.offs (record.take (s.capacity b))
      = rest b.ATOM data ++ record.take (s.capacity b) := by
    rw [memcpy_full, hs.pending]
    simp only [List.length_take, hs.atom]
    omega
  refine ⟨?_, ?_, ?_, ?_⟩
  · simp only [SHA.encode, hfull, hs.hash, hb1, hc1]
  · simp only [SHA.encode, List.take_zero, hb2, hc2]
  · have := length_rest b.ATOM (data ++ record.take (s.capacity b))
    rw [hb2, hc2] at this
    simp only [SHA.encode]
    simpa using this
  · simp only [SHA.encode, length_memcpy, hs.atom]

/-- The loop of `insert` calls `encode()` once for every block that the data taken in
completes. -/
theorem SHA.insertPasses_absorbed (b : Base) (seed : List Nat) :
    ∀ (fuel : Nat) (s : SHA) (record data : List Nat), SHA.Absorbed b seed data s →
      record.length + 1 ≤ fuel →
      SHA.insertPasses b fuel s record + data.length / b.ATOM
        = (data.length + record.length) / b.ATOM := by
  intro fuel
  induction fuel with
  | zero => intro s record data _ h; omega
  | succ fuel ih =>
    intro s record data hs hfuel
    have hcap := hs.capacity
    have hoffs := hs.offs
    rw [SHA.insertPasses]
    by_cases hc : s.capacity b ≤ record.length
    · simp only [hc, if_true]
      have hnext := SHA.encode_absorbed b seed data record s hs hc
      have hdrop : (record.drop (s.capacity b)).length + 1 ≤ fuel := by
        have := hs.offs_lt
        simp only [List.length_drop]
        omega
      have h := ih _ (record.drop (s.capacity b)) _ hnext hdrop
      simp only [List.length_append, List.length_take, List.length_drop,
        Nat.min_eq_left hc] at h
      rcases b.sizes with ⟨e1, _, _, _⟩ | ⟨e1, _, _, _⟩ <;> simp only [e1] at * <;> omega
    · simp only [hc, if_false]
      rcases b.sizes with ⟨e1, _, _, _⟩ | ⟨e1, _, _, _⟩ <;> simp only [e1] at * <;> omega

theorem SHA.passes_absorbed (b : Base) (seed : List Nat) :
    ∀ (updates : List (List Nat)) (s : SHA) (data : List Nat), SHA.Absorbed b seed data s →
      SHA.passes b s updates + data.length / b.ATOM
        = (data.length + updates.flatten.length) / b.ATOM := by
  intro updates
  induction updates with
  | nil => intro s data _; simp [SHA.passes]
  | cons record updates ih =>
    intro s data hs
    obtain ⟨h1, _⟩ := SHA.insert_absorbed b seed s record data hs
    have h2 := SHA.insertPasses_absorbed b seed (record.length + 2) s record data hs
      (by omega)
    have h3 := ih (SHA.insert b s record) _ h1
    simp only [List.length_append] at h3
    simp only [SHA.passes, SHA.updatePasses, SHA.update, List.flatten_cons,
      List.length_append]
    rw [← Nat.add_assoc]
    omega

/-- C18 as stated fails: after `digest()` on a fresh `SHA<256, 256>` engine `offs` is 256,
which is more than the 64 bytes of the block. -/
theorem sha_offset_after_digest :
    ¬ ((SHA.digest .sha256_256 (SHA.init .sha256_256)).1.offs ≤ Base.ATOM .b256) := by
  rw [SHA.offs_digest]
  decide

/-- C18, amended. Offset invariant: after any sequence of `update` calls on a fresh engine
`offs` is below the block byte length (64 or 128); after any number of `digest` calls that
follow, `offs` is `BASE`, the state width in bits (256 or 512), which is the value `digest()`
tests for and is more than the block byte length. -/
theorem sha_offset_invariant (v : Variant) :
    (∀ updates : List (List Nat),
        (updates.foldl (SHA.update v.base) (SHA.init v)).offs < v.base.ATOM)
      ∧ (∀ (updates : List (List Nat)) (k : Nat),
        ((fun s => (SHA.digest v s).1)^[k + 1]
          (updates.foldl (SHA.update v.base) (SHA.init v))).offs = v.base.BASE)
      ∧ v.base.ATOM < v.base.BASE := by
  refine ⟨?_, ?_, ?_⟩
  · intro updates
    exact (SHA.updates_absorbed v.base (SEED v) updates (SHA.init v) []
      (SHA.init_absorbed v) (SHA.size_init_lt v)).1.offs_lt
  · intro updates k
    rw [Function.iterate_succ_apply']
    exact SHA.offs_digest v _
  · rcases v.base.sizes with ⟨e1, _, e3, _⟩ | ⟨e1, _, e3, _⟩ <;> omega

/-- C19. Update accounting: after any sequence of `update` calls on a fresh engine whose
inputs total `n < 2 ^ 64` bytes, `size = n`, `offs = n mod B < B`, the first `offs` bytes of
`atom` are the last `offs` bytes of the concatenated input, and `encode()` has been called
`n / B` times; all of this depends on the concatenated input only. -/
theorem sha_update_accounting (v : Variant) (updates : List (List Nat))
    (h : updates.flatten.length < 2 ^ 64) :
    (updates.foldl (SHA.update v.base) (SHA.init v)).size = updates.flatten.length
      ∧ (updates.foldl (SHA.update v.base) (SHA.init v)).offs
          = updates.flatten.length % v.base.ATOM
      ∧ (updates.foldl (SHA.update v.base) (SHA.init v)).offs < v.base.ATOM
      ∧ (updates.foldl (SHA.update v.base) (SHA.init v)).atom.take
            (updates.foldl (SHA.update v.base) (SHA.init v)).offs
          = updates.flatten.drop (updates.flatten.length
              - (updates.foldl (SHA.update v.base) (SHA.init v)).offs)
      ∧ SHA.passes v.base (SHA.init v) updates = updates.flatten.length / v.base.ATOM := by
  obtain ⟨ha, hsize⟩ := SHA.updates_absorbed v.base (SEED v) updates (SHA.init v) []
    (SHA.init_absorbed v) (SHA.size_init_lt v)
  have hp := SHA.passes_absorbed v.base (SEED v) updates (SHA.init v) [] (SHA.init_absorbed v)
  rw [List.nil_append] at ha
  have h0 : (SHA.init v).size = 0 := rfl
  rw [h0, Nat.zero_add, Nat.mod_eq_of_lt (by rw [SIZE_T_eq]; omega)] at hsize
  simp only [List.length_nil, Nat.zero_div, Nat.add_zero, Nat.zero_add] at hp
  refine ⟨hsize, ha.offs, ha.offs_lt, ?_, hp⟩
  rw [ha.pending, ha.offs, rest]
  congr 1
  have h1 := Nat.mod_add_div updates.flatten.length v.base.ATOM
  rw [Nat.mul_comm] at h1
  omega

set_option maxRecDepth 100000 in
/-- C19, at the 130 bytes of three calls, for `SHA<256, 256>`. -/
theorem sha_update_accounting_witness :
    [List.replicate 60 1, List.replicate 8 2, List.replicate 62 3].flatten.length < 2 ^ 64
      ∧ (([List.replicate 60 1, List.replicate 8 2, List.replicate 62 3].foldl
          (SHA.update .b256) (SHA.init .sha256_256)).size = 130
        ∧ ([List.replicate 60 1, List.replicate 8 2, List.replicate 62 3].foldl
          (SHA.update .b256) (SHA.init .sha256_256)).offs = 2
        ∧ SHA.passes .b256 (SHA.init .sha256_256)
          [List.replicate 60 1, List.replicate 8 2, List.replicate 62 3] = 2) := by
  have h := sha_update_accounting .sha256_256
    [List.replicate 60 1, List.replicate 8 2, List.replicate 62 3] (by decide)
  exact ⟨by decide, h.1, h.2.1, h.2.2.2.2⟩

/-! ## The calls of `encode()` in `finish()` -/

theorem SHA.fillPasses_eq (b : Base) (record : Nat) :
    ∀ (fuel : Nat) (s : SHA) (remain : Nat),
      SHA.fillPasses b record fuel s remain
        = SHA.insertPasses b fuel s (List.replicate remain record) := by
  intro fuel
  induction fuel with
  | zero => intro s remain; rfl
  | succ fuel ih =>
    intro s remain
    rw [SHA.fillPasses, SHA.insertPasses]
    simp only [List.length_replicate]
    by_cases hc : s.capacity b ≤ remain
    · simp only [hc, if_true, ih, List.take_replicate, List.drop_replicate,
        Nat.min_eq_left hc]
    · simp only [hc, if_false]

theorem SHA.fillPasses_absorbed (b : Base) (seed data : List Nat) (s : SHA)
    (length record : Nat) (hs : SHA.Absorbed b seed data s) :
    SHA.fillPasses b record (length + 2) s length + data.length / b.ATOM
      = (data.length + length) / b.ATOM := by
  have h := SHA.insertPasses_absorbed b seed (length + 2) s (List.replicate length record)
    data hs (by simp)
  rw [List.length_replicate] at h
  rw [SHA.fillPasses_eq]
  exact h

theorem SHA.fill_absorbed (b : Base) (seed data : List Nat) (s : SHA) (length record : Nat)
    (hs : SHA.Absorbed b seed data s) :
    SHA.Absorbed b seed (data ++ List.replicate length record) (SHA.fill b s length record) := by
  rw [SHA.fill_eq]
  exact (SHA.insert_absorbed b seed s (List.replicate length record) data hs).1

/-- `finish()` calls `encode()` twice when the length field does not fit behind the `0x80`
byte in the current block, and once otherwise. -/
theorem SHA.finishPasses_absorbed (v : Variant) (seed data : List Nat) (s : SHA)
    (hs : SHA.Absorbed v.base seed data s) :
    SHA.finishPasses v s
      = if v.base.ATOM - v.base.longBytes ≤ data.length % v.base.ATOM then 2 else 1 := by
  have h1 := SHA.fill_absorbed v.base seed data s 1 0x80 hs
  have c1 := SHA.fillPasses_absorbed v.base seed data s 1 0x80 hs
  have ho1 := h1.offs
  have hc1 := h1.capacity
  have hL := SHA.length_length v.base s.size
  simp only [List.length_append, List.length_replicate] at ho1
  simp only [SHA.finishPasses]
  by_cases hgt : (SHA.fill v.base s 1 0x80).offs > v.base.ATOM - v.base.longBytes
  · simp only [hgt, if_true]
    have h2 := SHA.fill_absorbed v.base seed _ _
      ((SHA.fill v.base s 1 0x80).capacity v.base) 0 h1
    have c2 := SHA.fillPasses_absorbed v.base seed _ _
      ((SHA.fill v.base s 1 0x80).capacity v.base) 0 h1
    have ho2 := h2.offs
    have h3 := SHA.fill_absorbed v.base seed _ _
      ((SIZE_T + (v.base.ATOM - v.base.longBytes)
        - (SHA.fill v.base (SHA.fill v.base s 1 0x80)
            ((SHA.fill v.base s 1 0x80).capacity v.base) 0).offs) % SIZE_T) 0 h2
    have c3 := SHA.fillPasses_absorbed v.base seed _ _
      ((SIZE_T + (v.base.ATOM - v.base.longBytes)
        - (SHA.fill v.base (SHA.fill v.base s 1 0x80)
            ((SHA.fill v.base s 1 0x80).capacity v.base) 0).offs) % SIZE_T) 0 h2
    have c4 := SHA.insertPasses_absorbed v.base seed ((SHA.length v.base s.size).length + 2)
      _ (SHA.length v.base s.size) _ h3 (by omega)
    simp only [List.length_append, List.length_replicate] at ho2 c2 c3 c4
    simp only [SHA.updatePasses]
    rw [SIZE_T_eq] at c3 c4 ⊢
    rcases v.base.sizes with ⟨e1, e2, _, _⟩ | ⟨e1, e2, _, _⟩ <;>
      simp only [e1, e2] at * <;> split <;> omega
  · simp only [hgt, if_false]
    have h3 := SHA.fill_absorbed v.base seed _ _
      ((SIZE_T + (v.base.ATOM - v.base.longBytes)
        - (SHA.fill v.base s 1 0x80).offs) % SIZE_T) 0 h1
    have c3 := SHA.fillPasses_absorbed v.base seed _ _
      ((SIZE_T + (v.base.ATOM - v.base.longBytes)
        - (SHA.fill v.base s 1 0x80).offs) % SIZE_T) 0 h1
    have c4 := SHA.insertPasses_absorbed v.base seed ((SHA.length v.base s.size).length + 2)
      _ (SHA.length v.base s.size) _ h3 (by omega)
    simp only [List.length_append, List.length_replicate] at c3 c4
    simp only [SHA.updatePasses]
    rw [SIZE_T_eq] at c3 c4 ⊢
    rcases v.base.sizes with ⟨e1, e2, _, _⟩ | ⟨e1, e2, _, _⟩ <;>
      simp only [e1, e2] at * <;> split <;> omega

theorem toBytes_mod (n x : Nat) : toBytes n (x % 256 ^ n) = toBytes n x := by
  have h := toBytes_add_mul n (x % 256 ^ n) (x / 256 ^ n)
  rw [Nat.mod_add_div] at h
  exact h.symm

/-- The length field holds the bit count of every message shorter than `2 ^ 64` bytes, cut to
the `L` bytes of the field. -/
theorem SHA.length_eq_of_lt (b : Base) (n : Nat) (h : n < 2 ^ 64) :
    SHA.length b n = bigEndian b.longBytes (8 * n) := by
  cases b
  · have hp : SIZE_T = 256 ^ 8 := by decide
    simp only [SHA.length, toBytes_swap, bigEndian, hp, toBytes_mod, Base.longBytes,
      Nat.mul_comm n 8]
  · exact SHA.length_b512 n h

/-- C20. Extra compression pass at the block boundary: for a message of `n < 2 ^ 64` bytes,
`finish()` calls `encode()` exactly twice when `n mod B >= B - L` and exactly once otherwise;
when `n mod B = B - 1` it calls it twice and the digest is the reference value for the padded
message `m ++ 0x80 ++ (B - L) zero bytes ++ bigEndian_L (8 * n)`. -/
theorem sha_finish_passes (v : Variant) (m : List Nat) (h : m.length < 2 ^ 64) :
    SHA.finishPasses v (SHA.update v.base (SHA.init v) m)
        = (if v.base.ATOM - v.base.longBytes ≤ m.length % v.base.ATOM then 2 else 1)
      ∧ (m.length % v.base.ATOM = v.base.ATOM - 1 →
          SHA.finishPasses v (SHA.update v.base (SHA.init v) m) = 2
          ∧ sha v m
            = (wire v.base (absorb v.base (SEED v)
                (m ++ [0x80] ++ List.replicate (v.base.ATOM - v.base.longBytes) 0
                  ++ bigEndian v.base.longBytes (8 * m.length)))).take (v.SIZE / 8)) := by
  obtain ⟨ha, _⟩ := SHA.insert_absorbed v.base (SEED v) (SHA.init v) m []
    (SHA.init_absorbed v)
  rw [List.nil_append] at ha
  have hcount := SHA.finishPasses_absorbed v (SEED v) m _ ha
  refine ⟨hcount, ?_⟩
  intro hlast
  constructor
  · rw [SHA.update, hcount, if_pos]
    rcases v.base.sizes with ⟨e1, e2, _, _⟩ | ⟨e1, e2, _, _⟩ <;> simp only [e1, e2] at * <;>
      omega
  · have hz : padZeros v.base.ATOM v.base.longBytes m.length
        = v.base.ATOM - v.base.longBytes := by
      simp only [padZeros]
      rcases v.base.sizes with ⟨e1, e2, _, _⟩ | ⟨e1, e2, _, _⟩ <;> simp only [e1, e2] at * <;>
        omega
    have hmod : m.length % SIZE_T = m.length := Nat.mod_eq_of_lt (by rw [SIZE_T_eq]; omega)
    rw [sha_eq_absorb, hz, hmod, SHA.length_eq_of_lt v.base m.length h]

set_option maxRecDepth 100000 in
/-- C20, at a message of 63 bytes for `SHA<256, 256>`. -/
theorem sha_finish_passes_witness :
    (List.replicate 63 0x61).length < 2 ^ 64
      ∧ (List.replicate 63 0x61).length % Base.ATOM .b256 = Base.ATOM .b256 - 1
      ∧ SHA.finishPasses .sha256_256
          (SHA.update .b256 (SHA.init .sha256_256) (List.replicate 63 0x61)) = 2
      ∧ sha .sha256_256 (List.replicate 63 0x61)
          = (wire .b256 (absorb .b256 (SEED .sha256_256)
              (List.replicate 63 0x61 ++ [0x80] ++ List.replicate (64 - 8) 0
                ++ bigEndian 8 (8 * 63)))).take 32 :=
  ⟨by decide, by decide,
    (sha_finish_passes .sha256_256 (List.replicate 63 0x61) (by decide)).2 (by decide)⟩

/-! ## The mixing functions -/

theorem testBit_not_word (WORD x i : Nat) (hx : x < 2 ^ WORD) :
    (2 ^ WORD - 1 - x).testBit i = (decide (i < WORD) && !x.testBit i) := by
  have h : 2 ^ WORD - 1 - x = 2 ^ WORD - (x + 1) := by omega
  rw [h]
  exact Nat.testBit_two_pow_sub_succ hx i

theorem testBit_word_of_le (WORD x i : Nat) (hx : x < 2 ^ WORD) (hi : WORD ≤ i) :
    x.testBit i = false :=
  Nat.testBit_eq_false_of_lt (Nat.lt_of_lt_of_le hx (Nat.pow_le_pow_right (by decide) hi))

/-- C22. The mixing functions equal the standard definitions: for all words `x`, `y`, `z` of
`WORD` bits (32 and 64 among them), `cho3 x y z` is `(x AND y) XOR ((NOT x) AND z)` and
`maj3 x y z` is `(x AND y) XOR (x AND z) XOR (y AND z)`. -/
theorem cho3_maj3_standard (WORD x y z : Nat) (hx : x < 2 ^ WORD) (hy : y < 2 ^ WORD)
    (hz : z < 2 ^ WORD) :
    cho3 x y z = choose WORD x y z ∧ maj3 x y z = majority x y z := by
  constructor
  · apply Nat.eq_of_testBit_eq
    intro i
    simp only [cho3, choose, Nat.testBit_xor, Nat.testBit_and, testBit_not_word WORD x i hx]
    by_cases hi : i < WORD
    · simp only [hi, decide_True, Bool.true_and]
      cases x.testBit i <;> cases y.testBit i <;> cases z.testBit i <;> rfl
    · have h1 := testBit_word_of_le WORD x i hx (Nat.le_of_not_lt hi)
      have h2 := testBit_word_of_le WORD z i hz (Nat.le_of_not_lt hi)
      have h3 := testBit_word_of_le WORD y i hy (Nat.le_of_not_lt hi)
      simp [h1, h2, h3]
  · apply Nat.eq_of_testBit_eq
    intro i
    simp only [maj3, majority, Nat.testBit_xor, Nat.testBit_and, Nat.testBit_or]
    cases x.testBit i <;> cases y.testBit i <;> cases z.testBit i <;> rfl

theorem cho3_maj3_standard_witness :
    cho3 0x510E527F 0x9B05688C 0x1F83D9AB = choose 32 0x510E527F 0x9B05688C 0x1F83D9AB
      ∧ maj3 0x6A09E667 0xBB67AE85 0x3C6EF372 = majority 0x6A09E667 0xBB67AE85 0x3C6EF372 :=
  ⟨(cho3_maj3_standard 32 0x510E527F 0x9B05688C 0x1F83D9AB (by decide) (by decide)
      (by decide)).1,
    (cho3_maj3_standard 32 0x6A09E667 0xBB67AE85 0x3C6EF372 (by decide) (by decide)
      (by decide)).2⟩

/-! ## The finalized marker while accumulating -/

/-- C24. The finalized marker is unreachable while accumulating: after every sequence of
`update` calls on a fresh engine `offs` is below the block byte length (64 or 128), so it is
not `BASE` (256 or 512), the value `digest()` tests for, and the first `digest()` runs
`finish()`. -/
theorem sha_digest_runs_finish (v : Variant) (updates : List (List Nat)) :
    (updates.foldl (SHA.update v.base) (SHA.init v)).offs < v.base.ATOM
      ∧ (v.base.ATOM = 64 ∨ v.base.ATOM = 128)
      ∧ (v.base.BASE = 256 ∨ v.base.BASE = 512)
      ∧ (updates.foldl (SHA.update v.base) (SHA.init v)).offs ≠ v.base.BASE
      ∧ SHA.digest v (updates.foldl (SHA.update v.base) (SHA.init v))
          = SHA.finish v (updates.foldl (SHA.update v.base) (SHA.init v)) := by
  have h := (SHA.updates_absorbed v.base (SEED v) updates (SHA.init v) []
    (SHA.init_absorbed v) (SHA.size_init_lt v)).1.offs_lt
  generalize updates.foldl (SHA.update v.base) (SHA.init v) = s at h ⊢
  have hne : s.offs ≠ v.base.BASE := by
    rcases v.base.sizes with ⟨e1, _, e3, _⟩ | ⟨e1, _, e3, _⟩ <;> omega
  refine ⟨h, ?_, ?_, hne, ?_⟩
  · rcases v.base.sizes with ⟨e1, _, e3, _⟩ | ⟨e1, _, e3, _⟩ <;> omega
  · rcases v.base.sizes with ⟨e1, _, e3, _⟩ | ⟨e1, _, e3, _⟩ <;> omega
  · rw [SHA.digest, if_neg hne]

/-! ## The constructor from a record -/

theorem toBytes_zero (n : Nat) : toBytes n 0 = List.replicate n 0 := by
  induction n with
  | zero => rfl
  | succ n ih => simp [toBytes, ih, List.replicate_succ]

theorem toBytes_ofBytes_pad (l : List Nat) (h : ∀ y ∈ l, y < 256) :
    ∀ n : Nat, l.length ≤ n → toBytes n (ofBytes l) = l ++ List.replicate (n - l.length) 0 := by
  induction l with
  | nil =>
    intro n _
    simp [ofBytes, toBytes_zero]
  | cons y l ih =>
    intro n hn
    have hy : y < 256 := h y (List.mem_cons_self _ _)
    have hl : ∀ z ∈ l, z < 256 := fun z hz => h z (List.mem_cons_of_mem _ hz)
    cases n with
    | zero => simp at hn
    | succ n =>
      simp only [List.length_cons, Nat.add_le_add_iff_right] at hn
      have h1 : (y + 256 * ofBytes l) % 256 = y := by omega
      have h2 : (y + 256 * ofBytes l) / 256 = ofBytes l := by omega
      simp only [toBytes, ofBytes, h1, h2, ih hl n hn, List.length_cons, List.cons_append,
        Nat.add_sub_add_right]

/-- The bytes of a zero-initialised `Number` after the `memcpy` of a record that fits: the
record, then zero bytes. -/
theorem Number.bytes_load (n : Nat) :
    ∀ (bins : Nat) (object : List Nat), (∀ y ∈ object, y < 256) → object.length ≤ n * bins →
      Number.bytes n (Number.load n bins object)
        = object ++ List.replicate (n * bins - object.length) 0 := by
  intro bins
  induction bins with
  | zero =>
    intro object _ hlen
    have h0 : object = [] := List.eq_nil_of_length_eq_zero (by omega)
    simp [h0, Number.load, Number.bytes]
  | succ bins ih =>
    intro object h hlen
    have htake : ∀ y ∈ object.take n, y < 256 := fun y hy => h y (List.mem_of_mem_take hy)
    have hdrop : ∀ y ∈ object.drop n, y < 256 := fun y hy => h y (List.mem_of_mem_drop hy)
    have hbytes : Number.bytes n (Number.load n (bins + 1) object)
        = toBytes n (ofBytes (object.take n))
          ++ Number.bytes n (Number.load n bins (object.drop n)) := by
      simp [Number.load, Number.bytes]
    have hdl : (object.drop n).length ≤ n * bins := by
      rw [List.length_drop, Nat.mul_succ] at *
      omega
    rw [hbytes, ih (object.drop n) hdrop hdl,
      toBytes_ofBytes_pad (object.take n) htake n (by rw [List.length_take]; omega),
      List.length_take, List.length_drop]
    rw [Nat.mul_succ] at hlen ⊢
    by_cases hn : n ≤ object.length
    · rw [Nat.min_eq_left hn, Nat.sub_self, List.replicate_zero, List.append_nil,
        ← List.append_assoc, List.take_append_drop]
      congr 2
      omega
    · have hlt : object.length < n := Nat.lt_of_not_le hn
      rw [Nat.min_eq_right (Nat.le_of_lt hlt), List.take_of_length_le (Nat.le_of_lt hlt),
        List.drop_of_length_le (Nat.le_of_lt hlt), List.nil_append, List.append_assoc,
        ← List.replicate_add]
      congr 2
      omega

/-- C21 as stated fails: the 8 bytes of a `size_t` holding 1, a record smaller than the 16
bytes of a `uint128_t` (4 words of 4 bytes), pass the assertion of the constructor and give
the value 1. This is the `long_t(size)` of `finish()` for `BASE = 512`. -/
theorem ofRecord_undersized_accepted :
    (toBytes 8 1).length < 4 * 4
      ∧ Number.ofRecord 4 4 (toBytes 8 1) = some [1, 0, 0, 0]
      ∧ Number.ofRecord 4 4 (toBytes 8 1) ≠ none := by
  decide

/-- C21, amended. The assertion of `Number(const data_t &object)` fails exactly for a record
larger than the `Number`; a record of at most the byte length of the `Number` is accepted, and
the bytes of the `Number` are those of the record followed by zero bytes. -/
theorem ofRecord_precondition (n bins : Nat) (object : List Nat)
    (h : ∀ y ∈ object, y < 256) :
    (n * bins < object.length ↔ Number.ofRecord n bins object = none)
      ∧ (object.length ≤ n * bins →
          ∃ number, Number.ofRecord n bins object = some number
            ∧ number.length = bins
            ∧ Number.bytes n number
                = object ++ List.replicate (n * bins - object.length) 0) := by
  constructor
  · rw [Number.ofRecord]
    split
    · simp only [reduceCtorEq, iff_false]
      omega
    · simp only [iff_true]
      omega
  · intro hlen
    refine ⟨Number.load n bins object, ?_, length_load n bins object,
      Number.bytes_load n bins object h hlen⟩
    rw [Number.ofRecord, if_pos hlen]

/-- C21 amended, at the 8 bytes of a `size_t` holding `0x0102` and a `uint128_t`. -/
theorem ofRecord_precondition_witness :
    (∀ y ∈ toBytes 8 0x0102, y < 256)
      ∧ (4 * 4 < (toBytes 8 0x0102).length ↔ Number.ofRecord 4 4 (toBytes 8 0x0102) = none)
      ∧ ((toBytes 8 0x0102).length ≤ 4 * 4 →
          ∃ number, Number.ofRecord 4 4 (toBytes 8 0x0102) = some number
            ∧ number.length = 4
            ∧ Number.bytes 4 number
                = toBytes 8 0x0102 ++ List.replicate (4 * 4 - (toBytes 8 0x0102).length) 0) :=
  ⟨by decide, ofRecord_precondition 4 4 (toBytes 8 0x0102) (by decide)⟩

/-! ## Termination of `encode` -/

/-- The loop of `encode` makes one pass for every base-`digits` digit of the value, whatever
the number of passes it is allowed beyond the bits of the value. -/
theorem Number.encodePasses_digits {α : Type} (WORD : Nat) (format : List α)
    (hW : WORD ≤ 32) (hd0 : 2 ≤ format.length) (hd : format.length ≤ 2 ^ 32) :
    ∀ (fuel : Nat) (number : List Nat), Number.Valid WORD number →
      Number.value WORD number < 2 ^ fuel →
      Number.encodePasses WORD format (fuel + 1) number
        = (Nat.digits format.length (Number.value WORD number)).length := by
  intro fuel
  induction fuel with
  | zero =>
    intro number _ hlt
    have h0 : Number.value WORD number = 0 := by omega
    have hnot := (Number.not_eq_true WORD number).mpr h0
    simp [Number.encodePasses, hnot, h0]
  | succ fuel ih =>
    intro number hv hlt
    by_cases h0 : Number.value WORD number = 0
    · have hnot := (Number.not_eq_true WORD number).mpr h0
      simp [Number.encodePasses, hnot, h0]
    · have hnot : Number.not number = false := by
        cases hb : Number.not number with
        | false => rfl
        | true => exact absurd ((Number.not_eq_true WORD number).mp hb) h0
      obtain ⟨q, r, hdiv, hq, _, hqv, hrv⟩ :=
        Number.divide_spec WORD format.length hW (by omega) hd number hv
      have hrlt : r < format.length := by rw [hrv]; exact Nat.mod_lt _ (by omega)
      have hqlt : Number.value WORD q < 2 ^ fuel := by
        rw [hqv, Nat.div_lt_iff_lt_mul (by omega)]
        calc Number.value WORD number < 2 ^ (fuel + 1) := hlt
          _ = 2 ^ fuel * 2 := Nat.pow_succ 2 fuel
          _ ≤ 2 ^ fuel * format.length := Nat.mul_le_mul_left _ hd0
      have hq2 := ih q hq hqlt
      rw [Number.encodePasses]
      simp only [hnot, hdiv, List.getElem?_eq_getElem hrlt, hq2]
      rw [Nat.digits_def' (by omega) (Nat.pos_of_ne_zero h0), ← hqv]
      simp

theorem pow_two_le_pow_two {m n : Nat} (h : m ≤ n) : 2 ^ m ≤ 2 ^ n :=
  Nat.pow_le_pow_right (by decide) h

/-- C25 as stated fails: for the value zero the loop of `encode` makes no pass, while the
numeral, the one character `alphabet[0]` pushed after the loop, has one digit. -/
theorem encode_zero_no_pass :
    Number.encodePasses 8 "0123456789abcdef".toList (8 * [0].length + 1) [0] = 0
      ∧ Number.encode 8 [0] "0123456789abcdef".toList = some ['0']
      ∧ Number.encodePasses 8 "0123456789abcdef".toList (8 * [0].length + 1) [0]
          ≠ ['0'].length := by
  decide

/-- C25, amended. `encode` ends and returns a numeral; every `divide` by the alphabet length
on a non-zero value leaves a strictly smaller value; the loop makes as many passes as the
value has base-`b` digits, which is the length of the numeral for a non-zero value and zero
passes for the value zero. -/
theorem encode_terminates {α : Type} (WORD : Nat) (v : List Nat) (format : List α)
    (hW : WORD ≤ 32) (hv : Number.Valid WORD v) (hb2 : 2 ≤ format.length)
    (hb : format.length ≤ 2 ^ 32) :
    (∃ string, Number.encode WORD v format = some string
        ∧ ∀ fuel, WORD * v.length < fuel →
            Number.encodePasses WORD format fuel v
              = (if Number.value WORD v = 0 then 0 else string.length))
      ∧ (∀ fuel, WORD * v.length < fuel →
          Number.encodePasses WORD format fuel v
            = (Nat.digits format.length (Number.value WORD v)).length)
      ∧ (∀ number, Number.Valid WORD number → Number.value WORD number ≠ 0 →
          ∃ q r, Number.divide WORD format.length number = some (q, r)
            ∧ Number.value WORD q < Number.value WORD number) := by
  have hpass : ∀ fuel, WORD * v.length < fuel →
      Number.encodePasses WORD format fuel v
        = (Nat.digits format.length (Number.value WORD v)).length := by
    intro fuel hf
    obtain ⟨k, rfl⟩ : ∃ k, fuel = k + 1 := ⟨fuel - 1, by omega⟩
    exact Number.encodePasses_digits WORD format hW hb2 hb k v hv
      (Nat.lt_of_lt_of_le (Number.value_lt WORD v hv) (pow_two_le_pow_two (by omega)))
  refine ⟨?_, hpass, ?_⟩
  · obtain ⟨string, hs, hall⟩ := Number.encode_digits WORD v format hW hv hb2 hb
    refine ⟨string, hs, ?_⟩
    intro fuel hf
    rw [hpass fuel hf]
    have hlen := hall.length_eq
    by_cases h0 : Number.value WORD v = 0
    · simp [h0]
    · rw [if_neg h0] at hlen ⊢
      rw [hlen, List.length_reverse]
  · intro number hn h0
    obtain ⟨q, r, hdiv, _, _, hqv, _⟩ :=
      Number.divide_spec WORD format.length hW (by omega) hb number hn
    refine ⟨q, r, hdiv, ?_⟩
    rw [hqv]
    exact Nat.div_lt_self (Nat.pos_of_ne_zero h0) (by omega)

/-- C25 amended, at the 16-bit value `0x1234` in two 8-bit words and the decimal alphabet. -/
theorem encode_terminates_witness :
    Number.Valid 8 [0x34, 0x12]
      ∧ (∃ string, Number.encode 8 [0x34, 0x12] "0123456789".toList = some string
          ∧ ∀ fuel, 8 * [0x34, 0x12].length < fuel →
              Number.encodePasses 8 "0123456789".toList fuel [0x34, 0x12]
                = (if Number.value 8 [0x34, 0x12] = 0 then 0 else string.length))
      ∧ (∀ fuel, 8 * [0x34, 0x12].length < fuel →
          Number.encodePasses 8 "0123456789".toList fuel [0x34, 0x12]
            = (Nat.digits "0123456789".toList.length (Number.value 8 [0x34, 0x12])).length)
      ∧ (∀ number, Number.Valid 8 number → Number.value 8 number ≠ 0 →
          ∃ q r, Number.divide 8 "0123456789".toList.length number = some (q, r)
            ∧ Number.value 8 q < Number.value 8 number) :=
  ⟨by simp [Number.Valid],
    encode_terminates 8 [0x34, 0x12] "0123456789".toList (by decide)
      (by simp [Number.Valid]) (by decide) (by decide)⟩

/-! ## Subscripts of the compression pass -/

theorem Base.ITER_eq : Base.ITER .b256 = 64 ∧ Base.ITER .b512 = 80 :=
  ⟨rfl, rfl⟩

theorem length_SALT (b : Base) : (SALT b).length = b.ITER := by
  cases b <;> rfl

/-- A loop whose every pass stays inside its arrays returns the result of the same loop without
checks. -/
theorem foldlM_eq_some_foldl {α β : Type} (f : β → α → Option β) (g : β → α → β)
    (P : β → Prop) :
    ∀ (l : List α) (init : β), P init →
      (∀ acc, P acc → ∀ x ∈ l, f acc x = some (g acc x) ∧ P (g acc x)) →
      l.foldlM f init = some (l.foldl g init) ∧ P (l.foldl g init) := by
  intro l
  induction l with
  | nil =>
    intro init hP _
    exact ⟨rfl, hP⟩
  | cons x l ih =>
    intro init hP hstep
    obtain ⟨h1, h2⟩ := hstep init hP x (List.mem_cons_self _ _)
    have h3 := ih (g init x) h2
      (fun acc hacc y hy => hstep acc hacc y (List.mem_cons_of_mem _ hy))
    rw [List.foldlM_cons, h1, List.foldl_cons]
    exact h3

theorem getD_eq_of_getElem? {l : List Nat} {i w : Nat} (h : l[i]? = some w) :
    l.getD i 0 = w := by
  rw [List.getD_eq_getElem?_getD, h]
  rfl

/-- A round on a state of 8 words, with `i` inside the schedule and the table, stays inside its
arrays. -/
theorem roundChecked_eq (b : Base) (pseudo digest : List Nat) (i : Nat)
    (hd : digest.length = 8) (hp : i < pseudo.length) (hk : i < (SALT b).length) :
    roundChecked b (SALT b) pseudo digest i = some (SHA.round b pseudo digest i) := by
  match digest, hd with
  | [d0, d1, d2, d3, d4, d5, d6, d7], _ =>
    have hp1 : pseudo[i]? = some (pseudo[i]) := List.getElem?_eq_getElem hp
    have hk1 : (SALT b)[i]? = some ((SALT b)[i]) := List.getElem?_eq_getElem hk
    have hp2 := getD_eq_of_getElem? hp1
    have hk2 := getD_eq_of_getElem? hk1
    simp only [roundChecked, SHA.round, hp1, hk1, hp2, hk2]
    simp [Number.assign]

theorem SHA.length_round (b : Base) (pseudo digest : List Nat) (i : Nat) :
    (SHA.round b pseudo digest i).length = digest.length := by
  simp [SHA.round]

theorem getElem?_of_lt (l : List Nat) (i : Nat) (h : i < l.length) : ∃ w, l[i]? = some w :=
  ⟨l[i], List.getElem?_eq_getElem h⟩

/-- The first loop of `encode()` stays inside a schedule of at least 16 words. -/
theorem SHA.swapLoop_eq (b : Base) (pseudo : List Nat) (h : 16 ≤ pseudo.length) :
    (List.range 16).foldlM (SHA.orderChecked b) pseudo
      = some ((List.range 16).foldl
          (fun pseudo i => pseudo.set i (swap b.wordBytes (pseudo.getD i 0))) pseudo) :=
  (foldlM_eq_some_foldl _ _ (fun acc => acc.length = pseudo.length) (List.range 16) pseudo rfl
    (by
      intro acc hacc x hx
      have hx1 : x < acc.length := by rw [List.mem_range] at hx; omega
      obtain ⟨w, hw⟩ := getElem?_of_lt acc x hx1
      have hx0 : x < pseudo.length := hacc ▸ hx1
      simp [SHA.orderChecked, hw, getD_eq_of_getElem? hw, Number.assign, hx0, hacc])).1

/-- The second loop of `encode()` reads the schedule at `i - 16`, `i - 15`, `i - 7`, `i - 2` and
writes it at `i`, for `i` from 16 to the last word: all inside the schedule. -/
theorem SHA.scheduleLoop_eq (b : Base) (pseudo : List Nat) :
    (List.range' 16 (pseudo.length - 16)).foldlM (SHA.expandChecked b) pseudo
      = some ((List.range' 16 (pseudo.length - 16)).foldl
          (fun pseudo i => pseudo.set i
            ((pseudo.getD (i - 16) 0 + sigma0 b (pseudo.getD (i - 15) 0) +
              pseudo.getD (i - 7) 0 + sigma1 b (pseudo.getD (i - 2) 0)) % 2 ^ b.WORD)) pseudo) :=
  (foldlM_eq_some_foldl _ _ (fun acc => acc.length = pseudo.length)
    (List.range' 16 (pseudo.length - 16)) pseudo rfl
    (by
      intro acc hacc x hx
      rw [List.mem_range'_1] at hx
      have hx1 : x < acc.length := by omega
      obtain ⟨w16, h16⟩ := getElem?_of_lt acc (x - 16) (by omega)
      obtain ⟨w15, h15⟩ := getElem?_of_lt acc (x - 15) (by omega)
      obtain ⟨w7, h7⟩ := getElem?_of_lt acc (x - 7) (by omega)
      obtain ⟨w2, h2⟩ := getElem?_of_lt acc (x - 2) (by omega)
      have hx0 : x < pseudo.length := hacc ▸ hx1
      simp [SHA.expandChecked, h16, h15, h7, h2, getD_eq_of_getElem? h16, getD_eq_of_getElem? h15,
        getD_eq_of_getElem? h7, getD_eq_of_getElem? h2, Number.assign, hx0, hacc])).1

/-- The third loop of `encode()` on a state of 8 words, with as many rounds as the schedule has
words and the table has constants, stays inside its arrays. -/
theorem SHA.roundLoop_eq (b : Base) (pseudo digest : List Nat) (hd : digest.length = 8)
    (hk : pseudo.length ≤ (SALT b).length) :
    (List.range pseudo.length).foldlM (roundChecked b (SALT b) pseudo) digest
        = some ((List.range pseudo.length).foldl (SHA.round b pseudo) digest)
      ∧ ((List.range pseudo.length).foldl (SHA.round b pseudo) digest).length = 8 :=
  foldlM_eq_some_foldl _ _ (fun acc => acc.length = 8) (List.range pseudo.length) digest hd
    (by
      intro acc hacc x hx
      rw [List.mem_range] at hx
      exact ⟨roundChecked_eq b pseudo acc x hacc hx (Nat.lt_of_lt_of_le hx hk),
        (SHA.length_round b pseudo acc x).trans hacc⟩)

/-- The fourth loop of `encode()` stays inside `hash` and `digest`, which have as many words. -/
theorem SHA.sumLoop_eq (b : Base) (hash digest : List Nat) (hd : digest.length = hash.length) :
    (List.range hash.length).foldlM (SHA.sumChecked b digest) hash
      = some ((List.range hash.length).foldl
          (fun hash i => hash.set i ((hash.getD i 0 + digest.getD i 0) % 2 ^ b.WORD)) hash) :=
  (foldlM_eq_some_foldl _ _ (fun acc => acc.length = hash.length)
    (List.range hash.length) hash rfl
    (by
      intro acc hacc x hx
      rw [List.mem_range] at hx
      have hx1 : x < acc.length := by omega
      obtain ⟨w, hw⟩ := getElem?_of_lt acc x hx1
      obtain ⟨d, hd1⟩ := getElem?_of_lt digest x (by omega)
      simp [SHA.sumChecked, hw, hd1, getD_eq_of_getElem? hw, getD_eq_of_getElem? hd1,
        Number.assign, hx,
        hacc])).1

/-- With a state of 8 words every subscript of the four loops of `encode()` is inside its
array: the checked pass returns the value of the pass. -/
theorem SHA.compressChecked_eq (b : Base) (hash atom : List Nat) (h : hash.length = 8) :
    SHA.compressChecked b hash atom = some (SHA.compress b hash atom) := by
  have hI : 16 ≤ b.ITER := by cases b <;> decide
  have h0 : (Number.convert 1 b.wordBytes b.ITER atom).length = b.ITER := length_load _ _ _
  simp only [SHA.compressChecked, SHA.compress]
  generalize Number.convert 1 b.wordBytes b.ITER atom = pseudo at h0 ⊢
  have e1 := SHA.swapLoop_eq b pseudo (by omega)
  have l1 : ((List.range 16).foldl
      (fun pseudo i => pseudo.set i (swap b.wordBytes (pseudo.getD i 0))) pseudo).length
        = b.ITER := by
    rw [length_foldl_set (fun pseudo i => swap b.wordBytes (pseudo.getD i 0)) (fun i => i)]
    exact h0
  simp only [e1]
  generalize (List.range 16).foldl
      (fun pseudo i => pseudo.set i (swap b.wordBytes (pseudo.getD i 0))) pseudo = pseudo1 at l1 ⊢
  have e2 := SHA.scheduleLoop_eq b pseudo1
  have l2 : ((List.range' 16 (pseudo1.length - 16)).foldl
      (fun pseudo i => pseudo.set i
        ((pseudo.getD (i - 16) 0 + sigma0 b (pseudo.getD (i - 15) 0) +
          pseudo.getD (i - 7) 0 + sigma1 b (pseudo.getD (i - 2) 0)) % 2 ^ b.WORD))
      pseudo1).length = b.ITER := by
    rw [length_foldl_set (fun pseudo i =>
        (pseudo.getD (i - 16) 0 + sigma0 b (pseudo.getD (i - 15) 0) +
          pseudo.getD (i - 7) 0 + sigma1 b (pseudo.getD (i - 2) 0)) % 2 ^ b.WORD) (fun i => i)]
    exact l1
  simp only [e2]
  generalize (List.range' 16 (pseudo1.length - 16)).foldl
      (fun pseudo i => pseudo.set i
        ((pseudo.getD (i - 16) 0 + sigma0 b (pseudo.getD (i - 15) 0) +
          pseudo.getD (i - 7) 0 + sigma1 b (pseudo.getD (i - 2) 0)) % 2 ^ b.WORD))
      pseudo1 = pseudo2 at l2 ⊢
  obtain ⟨e3, l3⟩ := SHA.roundLoop_eq b pseudo2 hash h (by rw [length_SALT, l2])
  simp only [e3]
  exact SHA.sumLoop_eq b hash _ (by rw [l3, h])

/-- C23. Round count and index safety of the compression pass: the schedule and the table of
round constants have 64 words for the 256-bit state and 80 for the 512-bit state, the state has
8 words (the seeds, and the state after any sequence of updates), the block has 16 words, and on
a state of 8 words every subscript of a compression pass is inside its array, so that the pass
with every subscript checked returns the value of the pass. -/
theorem sha_compress_in_bounds (b : Base) (hash atom : List Nat) (h : hash.length = 8) :
    (Base.ITER .b256 = 64 ∧ Base.ITER .b512 = 80)
      ∧ (Number.convert 1 b.wordBytes b.ITER atom).length = b.ITER
      ∧ (SALT b).length = b.ITER
      ∧ (∀ v : Variant, (SEED v).length = 8)
      ∧ (∀ (v : Variant) (updates : List (List Nat)),
          (updates.foldl (SHA.update v.base) (SHA.init v)).hash.length = 8)
      ∧ b.ATOM = 16 * b.wordBytes
      ∧ SHA.compressChecked b hash atom = some (SHA.compress b hash atom)
      ∧ (SHA.compress b hash atom).length = 8 := by
  refine ⟨Base.ITER_eq, length_load _ _ _, length_SALT b, length_SEED, ?_, ?_,
    SHA.compressChecked_eq b hash atom h, ?_⟩
  · intro v updates
    have ha := (SHA.updates_absorbed v.base (SEED v) updates (SHA.init v) []
      (SHA.init_absorbed v) (SHA.size_init_lt v)).1.hash
    rw [ha, length_absorb, length_SEED]
  · cases b <;> rfl
  · rw [SHA.length_compress, h]

/-- C23 at the seed of SHA-256 and a block of zero bytes. -/
theorem sha_compress_in_bounds_witness :
    (SEED .sha256_256).length = 8
      ∧ SHA.compressChecked .b256 (SEED .sha256_256) (List.replicate 64 0)
          = some (SHA.compress .b256 (SEED .sha256_256) (List.replicate 64 0)) :=
  ⟨by decide,
    (sha_compress_in_bounds .b256 (SEED .sha256_256) (List.replicate 64 0)
      (by decide)).2.2.2.2.2.2.1⟩

/-! ## `hasher/rmd.h` -/

/-- C27 fails in the code. The state of `RMD<160>` has 5 words, and every round of
`RMD::encode()` reads and writes the registers 5, 6 and 7, outside the state: with every
subscript checked, the round fails on the seed and on every state of 5 words, whatever the
schedule, the table of round constants and the round index. -/
theorem rmd_round_out_of_bounds (salt pseudo : List Nat) (i w0 w1 w2 w3 w4 : Nat) :
    RMD.SEED.length = 5
      ∧ RMD.SEED[7]? = none
      ∧ RMD.round salt pseudo RMD.SEED i = none
      ∧ RMD.round salt pseudo [w0, w1, w2, w3, w4] i = none := by
  refine ⟨rfl, rfl, ?_, ?_⟩
  · rw [RMD.round, roundChecked]
    cases pseudo[i]? <;> cases salt[i]? <;> rfl
  · rw [RMD.round, roundChecked]
    cases pseudo[i]? <;> cases salt[i]? <;> rfl

/-! ## The text of a digest -/

theorem digits_byte (x V : Nat) (hx : x < 256) (h : V ≠ 0 ∨ 16 ≤ x) :
    Nat.digits 16 (x + 256 * V) = x % 16 :: x / 16 :: Nat.digits 16 V := by
  have e : x + 256 * V = x % 16 + 16 * (x / 16 + 16 * V) := by omega
  rw [e, Nat.digits_add 16 (by decide) (x % 16) (x / 16 + 16 * V) (Nat.mod_lt _ (by decide))
    (Or.inr (by omega)),
    Nat.digits_add 16 (by decide) (x / 16) V (by omega) (by omega)]

/-- The base-16 digits of a value in 8-bit words whose last word is at least `0x10`: the low and
the high nibble of every word, word 0 first. -/
theorem digits_value_bytes (d : List Nat) (hv : Number.Valid 8 d)
    (hlast : ∀ x ∈ d.getLast?, 16 ≤ x) :
    Nat.digits 16 (Number.value 8 d) = (d.map (fun x => [x % 16, x / 16])).flatten := by
  induction d with
  | nil => simp [Number.value]
  | cons x d ih =>
    have hx : x < 256 := hv.head
    have hV : Number.value 8 d ≠ 0 ∨ 16 ≤ x := by
      cases d with
      | nil => exact Or.inr (hlast x (by simp))
      | cons y d =>
        left
        have h1 := ih hv.tail (by simpa [List.getLast?_cons_cons] using hlast)
        intro h0
        rw [h0, Nat.digits_zero] at h1
        simp at h1
    have ih1 : Nat.digits 16 (Number.value 8 d)
        = (d.map (fun x => [x % 16, x / 16])).flatten := by
      cases d with
      | nil => simp [Number.value]
      | cons y d => exact ih hv.tail (by simpa [List.getLast?_cons_cons] using hlast)
    have e : Number.value 8 (x :: d) = x + 256 * Number.value 8 d := rfl
    rw [e, digits_byte x _ hx hV, ih1]
    simp

theorem getElem?_flatten_pairs {α β : Type} (f g : α → β) :
    ∀ (l : List α) (k : Nat),
      (l.map (fun x => [f x, g x])).flatten[2 * k]? = l[k]?.map f
        ∧ (l.map (fun x => [f x, g x])).flatten[2 * k + 1]? = l[k]?.map g := by
  intro l
  induction l with
  | nil => intro k; simp
  | cons x l ih =>
    intro k
    cases k with
    | zero => simp
    | succ k =>
      have h := ih k
      have e1 : 2 * (k + 1) = 2 * k + 1 + 1 := by omega
      have e2 : 2 * (k + 1) + 1 = 2 * k + 1 + 1 + 1 := by omega
      simp only [List.map_cons, List.flatten_cons, List.cons_append, List.nil_append, e1, e2,
        List.getElem?_cons_succ]
      exact h

theorem length_flatten_pairs {α β : Type} (f g : α → β) (l : List α) :
    (l.map (fun x => [f x, g x])).flatten.length = 2 * l.length := by
  induction l with
  | nil => rfl
  | cons x l ih =>
    simp only [List.map_cons, List.flatten_cons, List.length_append, List.length_cons,
      List.length_nil, ih]
    omega

theorem reverse_flatten_pairs {α β : Type} (f g : α → β) (l : List α) :
    (l.map (fun x => [f x, g x])).flatten.reverse
      = (l.reverse.map (fun x => [g x, f x])).flatten := by
  induction l with
  | nil => rfl
  | cons x l ih =>
    simp only [List.map_cons, List.flatten_cons, List.reverse_append, ih, List.reverse_cons,
      List.map_append, List.flatten_append, List.map_nil, List.flatten_nil, List.append_nil,
      List.reverse_nil, List.nil_append, List.singleton_append]

theorem forall₂_getElem? {α β : Type} (R : α → β → Prop) :
    ∀ (l1 : List α) (l2 : List β), List.Forall₂ R l1 l2 →
      ∀ (j : Nat) (r : β), l2[j]? = some r → ∃ c, l1[j]? = some c ∧ R c r := by
  intro l1 l2 h
  induction h with
  | nil => intro j r hr; simp at hr
  | cons hab _ ih =>
    intro j r hr
    cases j with
    | zero =>
      simp only [List.getElem?_cons_zero, Option.some.injEq] at hr ⊢
      subst hr
      exact ⟨_, rfl, hab⟩
    | succ j =>
      simp only [List.getElem?_cons_succ] at hr ⊢
      exact ih j r hr

theorem forall₂_eq_map {α : Type} (format : List α) (default : α) :
    ∀ (string : List α) (rs : List Nat),
      List.Forall₂ (fun c r => format[r]? = some c) string rs →
      string = rs.map (fun r => format.getD r default) := by
  intro string rs h
  induction h with
  | nil => rfl
  | cons hab _ ih =>
    rw [List.map_cons, ← ih, List.getD_eq_getElem?_getD, hab]
    rfl

theorem hexDigit_inj : ∀ i < 16, ∀ j < 16,
    "0123456789abcdef".toList.getD i '0' = "0123456789abcdef".toList.getD j '0' → i = j := by
  decide

theorem hex_data (bytes : List Nat) :
    (hex bytes).data = (bytes.map (fun x => ["0123456789abcdef".toList.getD (x / 16) '0',
      "0123456789abcdef".toList.getD (x % 16) '0'])).flatten :=
  rfl

/-- Two sequences of bytes with the same hexadecimal text are equal. -/
theorem hex_inj : ∀ (l1 l2 : List Nat), (∀ x ∈ l1, x < 256) → (∀ x ∈ l2, x < 256) →
    hex l1 = hex l2 → l1 = l2 := by
  intro l1
  induction l1 with
  | nil =>
    intro l2 _ _ h
    have h1 := congrArg String.data h
    rw [hex_data, hex_data] at h1
    cases l2 with
    | nil => rfl
    | cons y l2 => simp at h1
  | cons x l1 ih =>
    intro l2 h1 h2 h
    have hd := congrArg String.data h
    rw [hex_data, hex_data] at hd
    cases l2 with
    | nil => simp at hd
    | cons y l2 =>
      simp only [List.map_cons, List.flatten_cons, List.cons_append, List.nil_append,
        List.cons.injEq] at hd
      obtain ⟨e1, e2, e3⟩ := hd
      have hx : x < 256 := h1 x (List.mem_cons_self _ _)
      have hy : y < 256 := h2 y (List.mem_cons_self _ _)
      have q := hexDigit_inj (x / 16) (by omega) (y / 16) (by omega) e1
      have r := hexDigit_inj (x % 16) (Nat.mod_lt _ (by decide)) (y % 16)
        (Nat.mod_lt _ (by decide)) e2
      have hxy : x = y := by omega
      have ht : l1 = l2 := ih l2 (fun z hz => h1 z (List.mem_cons_of_mem _ hz))
        (fun z hz => h2 z (List.mem_cons_of_mem _ hz))
        (by
          apply String.ext
          rw [hex_data, hex_data]
          exact e3)
      rw [hxy, ht]

/-- The text `encode` gives for a value in 8-bit words whose last word is at least `0x10`, with
an alphabet of 16 characters: the characters of the high and the low nibble of every word, last
word first. -/
theorem Number.encode_nibbles {α : Type} (d : List Nat) (format : List α)
    (hv : Number.Valid 8 d) (hne : d ≠ []) (hf : format.length = 16)
    (hlast : ∀ x ∈ d.getLast?, 16 ≤ x) :
    ∃ string, Number.encode 8 d format = some string
      ∧ List.Forall₂ (fun c r => format[r]? = some c) string
          (d.reverse.map (fun x => [x / 16, x % 16])).flatten := by
  obtain ⟨string, hs, hall⟩ := Number.encode_digits 8 d format (by decide) hv
    (by rw [hf]; decide) (by rw [hf]; decide)
  have hdig := digits_value_bytes d hv hlast
  have h0 : Number.value 8 d ≠ 0 := by
    intro h0
    rw [h0, Nat.digits_zero] at hdig
    cases d with
    | nil => exact hne rfl
    | cons x d => simp at hdig
  rw [if_neg h0, hf, hdig, reverse_flatten_pairs] at hall
  exact ⟨string, hs, hall⟩

/-- C26. The text of a digest is byte-reversed: for a value `d` of 32 words of 8 bits whose
last byte is at least `0x10`, `encode` with an alphabet of 16 characters gives 64 characters, of
which the characters `2k` and `2k+1` are the alphabet digits of the high and the low nibble of
byte `31-k`; with the alphabet `0123456789abcdef` the text is the hexadecimal text of the bytes
in reverse order, which is the hexadecimal text of `d` only when `d` is a palindrome. -/
theorem encode_digest_reversed {α : Type} (d : List Nat) (format : List α)
    (hv : Number.Valid 8 d) (hlen : d.length = 32) (hf : format.length = 16)
    (hlast : 0x10 ≤ d.getD 31 0) :
    (∃ string, Number.encode 8 d format = some string ∧ string.length = 64
        ∧ ∀ k < 32, ∃ high low, string[2 * k]? = some high ∧ string[2 * k + 1]? = some low
            ∧ format[d.getD (31 - k) 0 / 16]? = some high
            ∧ format[d.getD (31 - k) 0 % 16]? = some low)
      ∧ Number.encode 8 d "0123456789abcdef".toList = some (hex d.reverse).data
      ∧ (hex d.reverse = hex d ↔ d.reverse = d) := by
  have hne : d ≠ [] := by
    intro e
    rw [e] at hlen
    simp at hlen
  have hl : ∀ x ∈ d.getLast?, 16 ≤ x := by
    intro x hx
    rw [List.getLast?_eq_getElem?, hlen] at hx
    have e : d.getD 31 0 = x := by
      rw [List.getD_eq_getElem?_getD]
      simp only [Option.mem_def] at hx
      simp only [Nat.add_one_sub_one] at hx
      rw [hx]
      rfl
    omega
  refine ⟨?_, ?_, ?_⟩
  · obtain ⟨string, hs, hall⟩ := Number.encode_nibbles d format hv hne hf hl
    refine ⟨string, hs, ?_, ?_⟩
    · rw [hall.length_eq, length_flatten_pairs, List.length_reverse, hlen]
    · intro k hk
      have hk1 : d.reverse[k]? = some (d.getD (31 - k) 0) := by
        rw [List.getElem?_reverse (by omega), hlen, List.getD_eq_getElem?_getD]
        obtain ⟨w, hw⟩ : ∃ w, d[32 - 1 - k]? = some w :=
          ⟨d[32 - 1 - k], List.getElem?_eq_getElem (by omega)⟩
        have e : 31 - k = 32 - 1 - k := by omega
        rw [e, hw]
        rfl
      obtain ⟨h1, h2⟩ := getElem?_flatten_pairs (fun x => x / 16) (fun x => x % 16) d.reverse k
      rw [hk1] at h1 h2
      obtain ⟨high, hh1, hh2⟩ := forall₂_getElem? _ _ _ hall _ _ h1
      obtain ⟨low, hl1, hl2⟩ := forall₂_getElem? _ _ _ hall _ _ h2
      exact ⟨high, low, hh1, hl1, hh2, hl2⟩
  · obtain ⟨string, hs, hall⟩ := Number.encode_nibbles d "0123456789abcdef".toList hv hne
      rfl hl
    rw [hs, forall₂_eq_map _ '0' _ _ hall, hex_data]
    simp [List.map_flatten, List.map_map, Function.comp_def]
  · constructor
    · intro h
      exact hex_inj _ _ (fun x hx => hv x (List.mem_reverse.mp hx)) hv h
    · intro h
      rw [h]

/-- C26 at the 32 bytes of the SHA-256 digest of `abc` and the alphabet `0123456789abcdef`. -/
theorem encode_digest_reversed_witness :
    0x10 ≤ List.getD
        [0xba, 0x78, 0x16, 0xbf, 0x8f, 0x01, 0xcf, 0xea, 0x41, 0x41, 0x40, 0xde, 0x5d, 0xae, 0x22, 0x23,
        0xb0, 0x03, 0x61, 0xa3, 0x96, 0x17, 0x7a, 0x9c, 0xb4, 0x10, 0xff, 0x61, 0xf2, 0x00, 0x15, 0xad] 31 0
      ∧ Number.encode 8
        [0xba, 0x78, 0x16, 0xbf, 0x8f, 0x01, 0xcf, 0xea, 0x41, 0x41, 0x40, 0xde, 0x5d, 0xae, 0x22, 0x23,
        0xb0, 0x03, 0x61, 0xa3, 0x96, 0x17, 0x7a, 0x9c, 0xb4, 0x10, 0xff, 0x61, 0xf2, 0x00, 0x15, 0xad] "0123456789abcdef".toList
        = some (hex (List.reverse
        [0xba, 0x78, 0x16, 0xbf, 0x8f, 0x01, 0xcf, 0xea, 0x41, 0x41, 0x40, 0xde, 0x5d, 0xae, 0x22, 0x23,
        0xb0, 0x03, 0x61, 0xa3, 0x96, 0x17, 0x7a, 0x9c, 0xb4, 0x10, 0xff, 0x61, 0xf2, 0x00, 0x15, 0xad])).data :=
  ⟨by decide,
    (encode_digest_reversed
        [0xba, 0x78, 0x16, 0xbf, 0x8f, 0x01, 0xcf, 0xea, 0x41, 0x41, 0x40, 0xde, 0x5d, 0xae, 0x22, 0x23,
        0xb0, 0x03, 0x61, 0xa3, 0x96, 0x17, 0x7a, 0x9c, 0xb4, 0x10, 0xff, 0x61, 0xf2, 0x00, 0x15, 0xad] "0123456789abcdef".toList
      (by simp [Number.Valid]) rfl rfl (by decide)).2.1⟩

end crypto
